import Mathlib

/-!
Shallow embedding of the hyprtag daemon's tag-visibility state machine.

* `Hyprtag.State` and its operations mirror `src/state.rs` (the per-monitor
  TagState: 32 tags, a `u32` visibility mask, a previous mask, an active tag
  index and an optional active window).
* `Hyprtag.MonitorsState` mirrors `src/monitor.rs`.
* `Hyprtag.Main` mirrors the event/control handling of `src/main.rs`.

Machine integers are modelled as `Nat` with explicit `% 2 ^ 32` (or `% 2 ^ 8`)
wherever the Rust `u32`/`u8` arithmetic can wrap; release-mode Rust semantics
(masked shifts, wrapping subtraction) are used, and debug-mode overflow panics
are modelled as operation failure where noted.  Fallible operations
(`anyhow::Result`) are modelled as `State → Args → State × Option Result`:
the returned state is the final contents of `&mut self` (all `bail!` sites in
`state.rs` occur before any mutation, which the definitions mirror), and
`none` marks an `Err`.
-/

namespace Hyprtag

/-- One tag: `id` is `1..=32`, `window_addrs` the ordered window addresses
(`struct Tag` in `state.rs`). -/
structure Tag where
  id : Nat
  window_addrs : List String
  deriving Repr, DecidableEq

/-- The per-monitor TagState (`struct State` in `state.rs`). -/
structure State where
  tags : List Tag
  visible_tags : Nat
  prev_tags : Nat
  active_tag_index : Nat
  active_window : Option String
  deriving Repr, DecidableEq

/-- A window with the id of its owning tag (`struct WindowInfo`); Rust
equality and hashing consider `addr` only, which the diff functions below
reproduce explicitly. -/
structure WindowInfo where
  addr : String
  tag : Nat
  deriving Repr, DecidableEq

/-- Differential update record (`struct Changes`). -/
structure Changes where
  window_added : List WindowInfo
  window_removed : List WindowInfo
  focus : Option String
  deriving Repr, DecidableEq

/-- `State::new()`: 32 empty tags with ids `1..=32`, tag 1 visible. -/
def State.init : State :=
  { tags := (List.range 32).map (fun n => { id := n + 1, window_addrs := [] })
    visible_tags := 1
    prev_tags := 1
    active_tag_index := 0
    active_window := none }

/-- `self.tags.iter().enumerate().find_map(..)` of
`State::find_window_tag_index`, with the running enumeration index. -/
def findTagIdxFrom (addr : String) : List Tag → Nat → Option Nat
  | [], _ => none
  | t :: ts, i => if addr ∈ t.window_addrs then some i else findTagIdxFrom addr ts (i + 1)

/-- `State::find_window_tag_index`: index of the first tag containing `addr`. -/
def find_window_tag_index (tl : List Tag) (addr : String) : Option Nat :=
  findTagIdxFrom addr tl 0

/-- Inner `windows.iter().enumerate().find_map(..)` of
`State::find_window_indexes`: first position of `addr` in one tag. -/
def findWindowIdxFrom (addr : String) : List String → Nat → Option Nat
  | [], _ => none
  | w :: ws, i => if w = addr then some i else findWindowIdxFrom addr ws (i + 1)

/-- Outer scan of `State::find_window_indexes`. -/
def findIdxPairFrom (addr : String) : List Tag → Nat → Option (Nat × Nat)
  | [], _ => none
  | t :: ts, i =>
    match findWindowIdxFrom addr t.window_addrs 0 with
    | some wi => some (i, wi)
    | none => findIdxPairFrom addr ts (i + 1)

/-- `State::find_window_indexes`: `(tag index, window index)` of the first
occurrence of `addr`. -/
def find_window_indexes (tl : List Tag) (addr : String) : Option (Nat × Nat) :=
  findIdxPairFrom addr tl 0

/-- The `if let Some(tag) = self.tags.get_mut(i) { .. }` pattern: update the
tag at `i` when the index is in range, otherwise leave the list unchanged. -/
def modifyTag (tl : List Tag) (i : Nat) (f : Tag → Tag) : List Tag :=
  match tl.get? i with
  | some t => tl.set i (f t)
  | none => tl

/-- Default tag for out-of-range `getD` reads (never reached on well-formed
states, whose tag vector has length 32). -/
def dTag : Tag := { id := 0, window_addrs := [] }

/-- `State::visible_windows`: for each set bit `n` of the mask, the windows of
tag `n` annotated with that tag's id, in bit order. -/
def visible_windows_of (tl : List Tag) (vis : Nat) : List WindowInfo :=
  (List.range 32).foldl
    (fun acc n =>
      if vis.testBit n then
        acc ++ (tl.getD n dTag).window_addrs.map
          (fun w => { addr := w, tag := (tl.getD n dTag).id })
      else acc)
    []

def State.visible_windows (s : State) : List WindowInfo :=
  visible_windows_of s.tags s.visible_tags

/-- Membership by address only (the Rust `HashSet<WindowInfo>` uses
address-only equality and hashing). -/
def hasAddr (l : List WindowInfo) (a : String) : Bool :=
  l.any (fun v => v.addr = a)

/-- `window_diff`: set differences `(b − a, a − b)` of the two snapshots under
address-only equality, modelled at the list level (the Rust version goes
through `HashSet`, whose iteration order is unspecified; all claims about the
diff are stated at the membership level). -/
def window_diff (a b : List WindowInfo) : List WindowInfo × List WindowInfo :=
  (b.filter (fun w => !hasAddr a w.addr), a.filter (fun w => !hasAddr b w.addr))

/-- The `for n in 0..32` scan of `State::set_visible_tags`, processing bit
positions `n, n+1, …, n+fuel-1`: sets or clears each bit of `vis` from the
argument mask `m` (`!(1<<n)` on `u32` is `(2^32 - 1) ^^^ (1 <<< n)`) and
records the first set bit `fti` and the first window `fw` of the lowest set
bit whose tag is non-empty. -/
def svtScan (m : Nat) (tl : List Tag) :
    Nat → Nat → Nat → Option String → Option Nat → Nat × Option String × Option Nat
  | _, 0, vis, fw, fti => (vis, fw, fti)
  | n, fuel + 1, vis, fw, fti =>
    if m.testBit n then
      svtScan m tl (n + 1) fuel (vis ||| (1 <<< n))
        (if fw = none ∧ (tl.getD n dTag).window_addrs ≠ [] then
          some ((tl.getD n dTag).window_addrs.headD "")
         else fw)
        (if fti = none then some n else fti)
    else
      svtScan m tl (n + 1) fuel (vis &&& ((2 ^ 32 - 1) ^^^ (1 <<< n))) fw fti

/-- `State::set_visible_tags`. -/
def State.set_visible_tags (s : State) (m : Nat) : State × Option Changes :=
  if m = 0 then (s, none)
  else
    let w1 := visible_windows_of s.tags s.visible_tags
    let s1 : State := { s with prev_tags := s.visible_tags }
    match svtScan m s1.tags 0 32 s1.visible_tags none none with
    | (vis, first_window, first_tag_index) =>
      let s2 : State := { s1 with visible_tags := vis }
      let w2 := visible_windows_of s2.tags s2.visible_tags
      match window_diff w1 w2 with
      | (window_added, window_removed) =>
        let ati : Option Nat :=
          match s2.active_window with
          | some aw => find_window_tag_index s2.tags aw
          | none => none
        let keep : Bool :=
          match ati with
          | some i => m.testBit i
          | none => false
        if keep then
          ({ s2 with active_tag_index := ati.getD 0 },
           some { window_added, window_removed, focus := s2.active_window })
        else
          ({ s2 with active_tag_index := first_tag_index.getD 0, active_window := none },
           some { window_added, window_removed, focus := first_window })

/-- `State::restore_prev_tags`. -/
def State.restore_prev_tags (s : State) : State × Option Changes :=
  s.set_visible_tags s.prev_tags

/-- `State::toggle_tag` (callers guarantee `1 ≤ tag ≤ 32`; `tag - 1` on `u8`
and the `u32` shifts panic in a debug build outside that range). -/
def State.toggle_tag (s : State) (tag : Nat) : State × Option Changes :=
  let tag_index := tag - 1
  let tags :=
    if s.visible_tags.testBit tag_index then
      s.visible_tags &&& ((2 ^ 32 - 1) ^^^ (1 <<< tag_index))
    else
      s.visible_tags ||| (1 <<< tag_index)
  s.set_visible_tags tags

/-- `State::new_window_added`: refuse a tracked address, otherwise push onto
the tag at `active_tag_index` (silently a no-op if that index is out of
range, mirroring the `if let Some(tag) = ..get_mut(..)`). -/
def State.new_window_added (s : State) (w : String) : State × Option Unit :=
  match find_window_tag_index s.tags w with
  | some _ => (s, none)
  | none =>
    let tl := modifyTag s.tags s.active_tag_index
      (fun t => { t with window_addrs := t.window_addrs ++ [w] })
    ({ s with tags := tl }, some ())

/-- `State::focus_window_changed` (the one-argument version of `state.rs`):
implicitly add an unknown address, then record it as active. -/
def State.focus_window_changed (s : State) (w : String) : State × Option Unit :=
  match find_window_tag_index s.tags w with
  | some _ => ({ s with active_window := some w }, some ())
  | none =>
    match s.new_window_added w with
    | (s1, none) => (s1, none)
    | (s1, some _) => ({ s1 with active_window := some w }, some ())

/-- `State::window_removed`: remove the found occurrence; `active_window` is
left untouched. -/
def State.window_removed (s : State) (w : String) : State × Option Unit :=
  match find_window_indexes s.tags w with
  | none => (s, none)
  | some (ti, wi) =>
    let tl := modifyTag s.tags ti
      (fun t => { t with window_addrs := t.window_addrs.eraseIdx wi })
    ({ s with tags := tl }, some ())

/-- `window.or(self.active_window.clone())`: the effective window of
`State::move_window`. -/
def orActive (s : State) (window : Option String) : Option String :=
  match window with
  | some w => some w
  | none => s.active_window

/-- `State::move_window`: `(dest_tag - 1) as usize` is wrapping `u8`
subtraction (debug builds panic on `dest_tag = 0`); push onto the destination
tag, then remove the occurrence found before the push. -/
def State.move_window (s : State) (dest_tag : Nat) (window : Option String) :
    State × Option Changes :=
  let dest_tag_index := (dest_tag + 255) % 256
  match orActive s window with
  | none => (s, none)
  | some w =>
    match find_window_indexes s.tags w with
    | none => (s, none)
    | some (tag_index, window_index) =>
      if dest_tag_index = tag_index then (s, none)
      else
        let w1 := visible_windows_of s.tags s.visible_tags
        match s.tags.get? dest_tag_index with
        | none => (s, none)
        | some _ =>
          let tl1 := modifyTag s.tags dest_tag_index
            (fun t => { t with window_addrs := t.window_addrs ++ [w] })
          let s1 : State := { s with tags := tl1 }
          let tl2 := modifyTag s1.tags tag_index
            (fun t => { t with window_addrs := t.window_addrs.eraseIdx window_index })
          let s2 : State := { s1 with tags := tl2 }
          let w2 := visible_windows_of s2.tags s2.visible_tags
          match window_diff w1 w2 with
          | (window_added, window_removed) =>
            (s2, some { window_added, window_removed, focus := none })

/-! ### Lemmas about the window finders -/

theorem findTagIdxFrom_eq_none_iff (a : String) (tl : List Tag) (i : Nat) :
    findTagIdxFrom a tl i = none ↔ ∀ t ∈ tl, a ∉ t.window_addrs := by
  induction tl generalizing i with
  | nil => simp [findTagIdxFrom]
  | cons t ts ih =>
    simp only [findTagIdxFrom]
    split
    · simp_all
    · rw [ih]
      simp_all

theorem findTagIdxFrom_eq_some (a : String) (tl : List Tag) (i j : Nat)
    (h : findTagIdxFrom a tl i = some j) :
    i ≤ j ∧ j - i < tl.length ∧ a ∈ (tl.getD (j - i) dTag).window_addrs := by
  induction tl generalizing i with
  | nil => simp [findTagIdxFrom] at h
  | cons t ts ih =>
    simp only [findTagIdxFrom] at h
    split at h
    · cases h
      simp_all
    · obtain ⟨h1, h2, h3⟩ := ih (i + 1) h
      refine ⟨by omega, by simp; omega, ?_⟩
      have hji : j - i = (j - (i + 1)) + 1 := by omega
      rw [hji]
      simpa using h3

theorem find_window_tag_index_eq_none_iff (a : String) (tl : List Tag) :
    find_window_tag_index tl a = none ↔ ∀ t ∈ tl, a ∉ t.window_addrs :=
  findTagIdxFrom_eq_none_iff a tl 0

theorem find_window_tag_index_eq_some (a : String) (tl : List Tag) (j : Nat)
    (h : find_window_tag_index tl a = some j) :
    j < tl.length ∧ a ∈ (tl.getD j dTag).window_addrs := by
  have := findTagIdxFrom_eq_some a tl 0 j h
  simpa using this

theorem find_window_tag_index_isSome_iff (a : String) (tl : List Tag) :
    (find_window_tag_index tl a).isSome ↔ ∃ t ∈ tl, a ∈ t.window_addrs := by
  rw [Option.isSome_iff_ne_none, ne_eq, find_window_tag_index_eq_none_iff]
  push_neg
  rfl

theorem getD_mem {α : Type} (l : List α) (n : Nat) (d : α) (h : n < l.length) :
    l.getD n d ∈ l := by
  rw [List.getD_eq_getElem l d h]
  exact l.getElem_mem h

theorem findWindowIdxFrom_eq_none_iff (a : String) (l : List String) (i : Nat) :
    findWindowIdxFrom a l i = none ↔ a ∉ l := by
  induction l generalizing i with
  | nil => simp [findWindowIdxFrom]
  | cons w ws ih =>
    simp only [findWindowIdxFrom]
    split
    · simp_all
    · rw [ih]
      simp_all
      tauto

theorem findWindowIdxFrom_eq_some (a : String) (l : List String) (i j : Nat)
    (h : findWindowIdxFrom a l i = some j) :
    i ≤ j ∧ j - i < l.length ∧ l.getD (j - i) "" = a := by
  induction l generalizing i with
  | nil => simp [findWindowIdxFrom] at h
  | cons w ws ih =>
    simp only [findWindowIdxFrom] at h
    split at h
    · cases h
      simp_all
    · obtain ⟨h1, h2, h3⟩ := ih (i + 1) h
      refine ⟨by omega, by simp; omega, ?_⟩
      have hji : j - i = (j - (i + 1)) + 1 := by omega
      rw [hji]
      simpa using h3

theorem findIdxPairFrom_eq_none_iff (a : String) (tl : List Tag) (i : Nat) :
    findIdxPairFrom a tl i = none ↔ ∀ t ∈ tl, a ∉ t.window_addrs := by
  induction tl generalizing i with
  | nil => simp [findIdxPairFrom]
  | cons t ts ih =>
    simp only [findIdxPairFrom]
    split
    · rename_i wi hwi
      constructor
      · intro h
        exact absurd h (by simp)
      · intro h
        obtain ⟨-, h2, h3⟩ := findWindowIdxFrom_eq_some a t.window_addrs 0 wi hwi
        simp only [Nat.sub_zero] at h2 h3
        have hmem : a ∈ t.window_addrs := by
          rw [← h3]
          exact getD_mem _ _ _ h2
        exact absurd hmem (h t (by simp))
    · rename_i hwi
      rw [ih]
      have hnotmem : a ∉ t.window_addrs := by
        rw [← findWindowIdxFrom_eq_none_iff a t.window_addrs 0]
        exact hwi
      simp_all

theorem findIdxPairFrom_eq_some (a : String) (tl : List Tag) (i : Nat) (ti wi : Nat)
    (h : findIdxPairFrom a tl i = some (ti, wi)) :
    i ≤ ti ∧ ti - i < tl.length ∧ wi < (tl.getD (ti - i) dTag).window_addrs.length ∧
      (tl.getD (ti - i) dTag).window_addrs.getD wi "" = a := by
  induction tl generalizing i with
  | nil => simp [findIdxPairFrom] at h
  | cons t ts ih =>
    simp only [findIdxPairFrom] at h
    split at h
    · rename_i wi2 hwi
      simp only [Option.some.injEq, Prod.mk.injEq] at h
      obtain ⟨rfl, rfl⟩ := h
      obtain ⟨-, h2, h3⟩ := findWindowIdxFrom_eq_some a t.window_addrs 0 wi2 hwi
      simp only [Nat.sub_zero] at h2 h3
      simp_all
    · obtain ⟨h1, h2, h3, h4⟩ := ih (i + 1) h
      have hji : ti - i = (ti - (i + 1)) + 1 := by omega
      refine ⟨by omega, by simp; omega, ?_, ?_⟩
      · rw [hji]
        simpa using h3
      · rw [hji]
        simpa using h4

theorem find_window_indexes_eq_none_iff (a : String) (tl : List Tag) :
    find_window_indexes tl a = none ↔ ∀ t ∈ tl, a ∉ t.window_addrs :=
  findIdxPairFrom_eq_none_iff a tl 0

theorem find_window_indexes_eq_some (a : String) (tl : List Tag) (ti wi : Nat)
    (h : find_window_indexes tl a = some (ti, wi)) :
    ti < tl.length ∧ wi < (tl.getD ti dTag).window_addrs.length ∧
      (tl.getD ti dTag).window_addrs.getD wi "" = a := by
  have := findIdxPairFrom_eq_some a tl 0 ti wi h
  simpa using this

/-! ### Lemmas about snapshots and diffs -/

theorem mem_foldl_if (p : Nat → Bool) (g : Nat → List WindowInfo) (x : WindowInfo) :
    ∀ (l : List Nat) (acc : List WindowInfo),
      (x ∈ l.foldl (fun a n => if p n then a ++ g n else a) acc ↔
        x ∈ acc ∨ ∃ n ∈ l, p n = true ∧ x ∈ g n) := by
  intro l
  induction l with
  | nil => simp
  | cons y ys ih =>
    intro acc
    simp only [List.foldl_cons]
    rw [ih]
    by_cases hp : p y = true
    · simp only [hp, if_pos, List.mem_append, List.mem_cons]
      constructor
      · rintro (⟨h | h⟩ | h)
        · exact Or.inl h
        · exact Or.inr ⟨y, Or.inl rfl, hp, h⟩
        · obtain ⟨n, hn, hpn, hx⟩ := h
          exact Or.inr ⟨n, Or.inr hn, hpn, hx⟩
      · rintro (h | ⟨n, hn | hn, hpn, hx⟩)
        · exact Or.inl (Or.inl h)
        · subst hn
          exact Or.inl (Or.inr hx)
        · exact Or.inr ⟨n, hn, hpn, hx⟩
    · rw [if_neg hp]
      constructor
      · rintro (h | ⟨n, hn, hpn, hx⟩)
        · exact Or.inl h
        · exact Or.inr ⟨n, List.mem_cons_of_mem _ hn, hpn, hx⟩
      · rintro (h | ⟨n, hn, hpn, hx⟩)
        · exact Or.inl h
        · rcases List.mem_cons.mp hn with rfl | hn'
          · exact absurd hpn hp
          · exact Or.inr ⟨n, hn', hpn, hx⟩

theorem mem_visible_windows_of (x : WindowInfo) (tl : List Tag) (vis : Nat) :
    x ∈ visible_windows_of tl vis ↔
      ∃ n, n < 32 ∧ vis.testBit n = true ∧
        x.tag = (tl.getD n dTag).id ∧ x.addr ∈ (tl.getD n dTag).window_addrs := by
  unfold visible_windows_of
  rw [mem_foldl_if (fun n => vis.testBit n)
    (fun n => (tl.getD n dTag).window_addrs.map
      (fun w => { addr := w, tag := (tl.getD n dTag).id })) x (List.range 32) []]
  simp only [List.not_mem_nil, false_or, List.mem_range, List.mem_map]
  constructor
  · rintro ⟨n, hn, ht, w, hw, rfl⟩
    exact ⟨n, hn, ht, rfl, hw⟩
  · rintro ⟨n, hn, ht, htag, haddr⟩
    exact ⟨n, hn, ht, x.addr, haddr, by cases x; simp_all⟩

theorem hasAddr_eq_true_iff (l : List WindowInfo) (a : String) :
    hasAddr l a = true ↔ ∃ v ∈ l, v.addr = a := by
  simp [hasAddr]

theorem hasAddr_eq_false_iff (l : List WindowInfo) (a : String) :
    hasAddr l a = false ↔ ∀ v ∈ l, v.addr ≠ a := by
  simp [hasAddr]

theorem mem_window_diff_fst (a b : List WindowInfo) (x : WindowInfo) :
    x ∈ (window_diff a b).1 ↔ x ∈ b ∧ hasAddr a x.addr = false := by
  simp [window_diff, List.mem_filter]

theorem mem_window_diff_snd (a b : List WindowInfo) (x : WindowInfo) :
    x ∈ (window_diff a b).2 ↔ x ∈ a ∧ hasAddr b x.addr = false := by
  simp [window_diff, List.mem_filter]

/-! ### Lemmas about the `set_visible_tags` bit scan -/

theorem svtScan_vis (m : Nat) (tl : List Tag) (fuel : Nat) :
    ∀ n vis fw fti, n + fuel ≤ 32 → vis < 2 ^ 32 →
      (svtScan m tl n fuel vis fw fti).1 < 2 ^ 32 ∧
      ∀ k, (svtScan m tl n fuel vis fw fti).1.testBit k =
        if n ≤ k ∧ k < n + fuel then m.testBit k else vis.testBit k := by
  induction fuel with
  | zero =>
    intro n vis fw fti hle hlt
    refine ⟨hlt, fun k => ?_⟩
    simp only [svtScan]
    rw [if_neg (by omega)]
  | succ fuel ih =>
    intro n vis fw fti hle hlt
    have hn32 : n < 32 := by omega
    have hpow : (1 <<< n : Nat) = 2 ^ n := by
      simp [Nat.shiftLeft_eq]
    by_cases hbit : m.testBit n
    · rw [svtScan, if_pos hbit]
      have hvis' : vis ||| (1 <<< n) < 2 ^ 32 := by
        rw [hpow]
        exact Nat.or_lt_two_pow hlt (Nat.pow_lt_pow_right (by omega) hn32)
      obtain ⟨hlt', hbits⟩ := ih (n + 1) (vis ||| (1 <<< n)) _ _ (by omega) hvis'
      refine ⟨hlt', fun k => ?_⟩
      rw [hbits k]
      by_cases hk1 : n + 1 ≤ k ∧ k < n + 1 + fuel
      · rw [if_pos hk1, if_pos (by omega)]
      · rw [if_neg hk1]
        rw [hpow]
        rcases Nat.lt_or_ge k n with hkn | hkn
        · rw [if_neg (by omega)]
          simp [Nat.testBit_lor, Nat.testBit_two_pow]
          omega
        · rcases Nat.eq_or_lt_of_le hkn with rfl | hkn'
          · rw [if_pos (by omega)]
            simp [Nat.testBit_lor, Nat.testBit_two_pow, hbit]
          · rw [if_neg (by omega)]
            simp [Nat.testBit_lor, Nat.testBit_two_pow]
            omega
    · rw [svtScan, if_neg hbit]
      have hvis' : vis &&& ((2 ^ 32 - 1) ^^^ (1 <<< n)) < 2 ^ 32 :=
        Nat.lt_of_le_of_lt Nat.and_le_left hlt
      obtain ⟨hlt', hbits⟩ := ih (n + 1) _ fw fti (by omega) hvis'
      refine ⟨hlt', fun k => ?_⟩
      rw [hbits k]
      have hmask : ∀ k, ((2 ^ 32 - 1) ^^^ (1 <<< n) : Nat).testBit k
          = (decide (k < 32) ^^ decide (n = k)) := by
        intro k
        rw [hpow, Nat.testBit_xor, Nat.testBit_two_pow_sub_one, Nat.testBit_two_pow]
      by_cases hk1 : n + 1 ≤ k ∧ k < n + 1 + fuel
      · rw [if_pos hk1, if_pos (by omega)]
      · rw [if_neg hk1]
        rcases Nat.lt_or_ge k n with hkn | hkn
        · rw [if_neg (by omega)]
          simp only [Nat.testBit_and, hmask k]
          have : (decide (k < 32) ^^ decide (n = k)) = true := by
            simp
            omega
          rw [this, Bool.and_true]
        · rcases Nat.eq_or_lt_of_le hkn with heq | hkn'
          · rw [if_pos (by omega)]
            simp only [Nat.testBit_and, hmask k]
            have hmf : m.testBit k = false := by
              subst heq
              exact Bool.eq_false_iff.mpr hbit
            have hxf : (decide (k < 32) ^^ decide (n = k)) = false := by
              subst heq
              simp [hn32]
            rw [hxf, Bool.and_false, hmf]
          · rw [if_neg (by omega)]
            simp only [Nat.testBit_and, hmask k]
            by_cases hk32 : k < 32
            · have : (decide (k < 32) ^^ decide (n = k)) = true := by
                simp
                omega
              rw [this, Bool.and_true]
            · have hvk : vis.testBit k = false :=
                Nat.testBit_eq_false_of_lt (lt_of_lt_of_le hlt
                  (Nat.pow_le_pow_right (by omega) (by omega)))
              have : (decide (k < 32) ^^ decide (n = k)) = false := by
                simp
                omega
              rw [this, Bool.and_false, hvk]

theorem svtScan_fti_some (m : Nat) (tl : List Tag) (fuel : Nat) :
    ∀ n vis fw j, (svtScan m tl n fuel vis fw (some j)).2.2 = some j := by
  induction fuel with
  | zero =>
    intro n vis fw j
    simp [svtScan]
  | succ fuel ih =>
    intro n vis fw j
    rw [svtScan]
    split
    · simpa using ih _ _ _ j
    · exact ih _ _ _ j

theorem svtScan_fti_none (m : Nat) (tl : List Tag) (fuel : Nat) :
    ∀ n vis fw,
      ((svtScan m tl n fuel vis fw none).2.2 = none ↔
        ∀ k, n ≤ k → k < n + fuel → m.testBit k = false) ∧
      (∀ j, (svtScan m tl n fuel vis fw none).2.2 = some j →
        n ≤ j ∧ j < n + fuel ∧ m.testBit j = true ∧
          ∀ k, n ≤ k → k < j → m.testBit k = false) := by
  induction fuel with
  | zero =>
    intro n vis fw
    constructor
    · simp only [svtScan]
      constructor
      · intro _ k h1 h2
        omega
      · intro _
        trivial
    · intro j h
      simp [svtScan] at h
  | succ fuel ih =>
    intro n vis fw
    by_cases hbit : m.testBit n
    · rw [svtScan, if_pos hbit, if_pos (show (none : Option Nat) = none from rfl)]
      rw [svtScan_fti_some]
      constructor
      · constructor
        · intro h
          cases h
        · intro h
          exact absurd (h n le_rfl (by omega)) (by simp [hbit])
      · intro j h
        cases h
        exact ⟨le_rfl, by omega, hbit, fun k h1 h2 => by omega⟩
    · rw [svtScan, if_neg hbit]
      obtain ⟨h1, h2⟩ := ih (n + 1) (vis &&& ((2 ^ 32 - 1) ^^^ (1 <<< n))) fw
      constructor
      · rw [h1]
        constructor
        · intro h k hk1 hk2
          rcases Nat.eq_or_lt_of_le hk1 with heq | hlt
          · subst heq
            exact Bool.eq_false_iff.mpr hbit
          · exact h k hlt (by omega)
        · intro h k hk1 hk2
          exact h k (by omega) (by omega)
      · intro j hj
        obtain ⟨ha, hb, hc, hd⟩ := h2 j hj
        refine ⟨by omega, by omega, hc, fun k hk1 hk2 => ?_⟩
        rcases Nat.eq_or_lt_of_le hk1 with heq | hlt
        · subst heq
          exact Bool.eq_false_iff.mpr hbit
        · exact hd k hlt hk2

/-- The predicate recorded by the `first_window` accumulator: bit set and tag
non-empty. -/
def fwP (m : Nat) (tl : List Tag) (k : Nat) : Prop :=
  m.testBit k = true ∧ (tl.getD k dTag).window_addrs ≠ []

instance (m : Nat) (tl : List Tag) (k : Nat) : Decidable (fwP m tl k) := by
  unfold fwP
  infer_instance

theorem svtScan_fw_some (m : Nat) (tl : List Tag) (fuel : Nat) :
    ∀ n vis fti w, (svtScan m tl n fuel vis (some w) fti).2.1 = some w := by
  induction fuel with
  | zero =>
    intro n vis fti w
    simp [svtScan]
  | succ fuel ih =>
    intro n vis fti w
    rw [svtScan]
    split
    · rw [if_neg (by simp)]
      exact ih _ _ _ w
    · exact ih _ _ _ w

theorem svtScan_fw_none (m : Nat) (tl : List Tag) (fuel : Nat) :
    ∀ n vis fti,
      ((svtScan m tl n fuel vis none fti).2.1 = none ↔
        ∀ k, n ≤ k → k < n + fuel → ¬fwP m tl k) ∧
      (∀ w, (svtScan m tl n fuel vis none fti).2.1 = some w →
        ∃ k, n ≤ k ∧ k < n + fuel ∧ fwP m tl k ∧
          w = (tl.getD k dTag).window_addrs.headD "" ∧
          ∀ j, n ≤ j → j < k → ¬fwP m tl j) := by
  induction fuel with
  | zero =>
    intro n vis fti
    constructor
    · simp only [svtScan]
      constructor
      · intro _ k h1 h2
        omega
      · intro _
        trivial
    · intro w h
      simp [svtScan] at h
  | succ fuel ih =>
    intro n vis fti
    by_cases hbit : m.testBit n
    · rw [svtScan, if_pos hbit]
      by_cases hne : (tl.getD n dTag).window_addrs ≠ []
      · rw [if_pos ⟨rfl, hne⟩]
        rw [svtScan_fw_some]
        constructor
        · constructor
          · intro h
            cases h
          · intro h
            exact absurd ⟨hbit, hne⟩ (h n le_rfl (by omega))
        · intro w hw
          cases hw
          exact ⟨n, le_rfl, by omega, ⟨hbit, hne⟩, rfl, fun j h1 h2 => by omega⟩
      · rw [if_neg (by
            intro hcon
            exact hne hcon.2)]
        obtain ⟨h1, h2⟩ := ih (n + 1) (vis ||| (1 <<< n)) _
        constructor
        · rw [h1]
          constructor
          · intro h k hk1 hk2
            rcases Nat.eq_or_lt_of_le hk1 with heq | hlt
            · subst heq
              intro hcon
              exact hne hcon.2
            · exact h k hlt (by omega)
          · intro h k hk1 hk2
            exact h k (by omega) (by omega)
        · intro w hw
          obtain ⟨k, ha, hb, hc, hd, he⟩ := h2 w hw
          refine ⟨k, by omega, by omega, hc, hd, fun j hj1 hj2 => ?_⟩
          rcases Nat.eq_or_lt_of_le hj1 with heq | hlt
          · subst heq
            intro hcon
            exact hne hcon.2
          · exact he j hlt hj2
    · rw [svtScan, if_neg hbit]
      obtain ⟨h1, h2⟩ := ih (n + 1) (vis &&& ((2 ^ 32 - 1) ^^^ (1 <<< n))) fti
      constructor
      · rw [h1]
        constructor
        · intro h k hk1 hk2
          rcases Nat.eq_or_lt_of_le hk1 with heq | hlt
          · subst heq
            intro hcon
            exact hbit hcon.1
          · exact h k hlt (by omega)
        · intro h k hk1 hk2
          exact h k (by omega) (by omega)
      · intro w hw
        obtain ⟨k, ha, hb, hc, hd, he⟩ := h2 w hw
        refine ⟨k, by omega, by omega, hc, hd, fun j hj1 hj2 => ?_⟩
        rcases Nat.eq_or_lt_of_le hj1 with heq | hlt
        · subst heq
          intro hcon
          exact hbit hcon.1
        · exact he j hlt hj2

/-! ### Structural lemmas about `set_visible_tags` -/

theorem svt_zero (s : State) : s.set_visible_tags 0 = (s, none) := by
  simp [State.set_visible_tags]

theorem svt_success (s : State) (m : Nat) (hm : m ≠ 0) :
    ∃ s' c, s.set_visible_tags m = (s', some c) ∧
      s'.tags = s.tags ∧
      s'.prev_tags = s.visible_tags ∧
      s'.visible_tags = (svtScan m s.tags 0 32 s.visible_tags none none).1 ∧
      c.window_added = (window_diff (visible_windows_of s.tags s.visible_tags)
        (visible_windows_of s.tags s'.visible_tags)).1 ∧
      c.window_removed = (window_diff (visible_windows_of s.tags s.visible_tags)
        (visible_windows_of s.tags s'.visible_tags)).2 := by
  unfold State.set_visible_tags
  rw [if_neg hm]
  rcases hscan : svtScan m s.tags 0 32 s.visible_tags none none with ⟨vis, fw, fti⟩
  simp only
  rw [hscan]
  rcases hd : window_diff (visible_windows_of s.tags s.visible_tags)
      (visible_windows_of s.tags vis) with ⟨wa, wr⟩
  split
  · exact ⟨_, _, rfl, rfl, rfl, rfl, by simp [hd], by simp [hd]⟩
  · exact ⟨_, _, rfl, rfl, rfl, rfl, by simp [hd], by simp [hd]⟩

theorem svt_fail_iff (s : State) (m : Nat) :
    (s.set_visible_tags m).2 = none ↔ m = 0 := by
  constructor
  · intro h
    by_contra hm
    obtain ⟨s', c, heq, -⟩ := svt_success s m hm
    rw [heq] at h
    cases h
  · rintro rfl
    rw [svt_zero]

theorem svt_visible_eq (s : State) (m : Nat) (hm : m ≠ 0) (hm32 : m < 2 ^ 32)
    (hvis : s.visible_tags < 2 ^ 32) :
    (s.set_visible_tags m).1.visible_tags = m ∧
      (s.set_visible_tags m).1.prev_tags = s.visible_tags ∧
      (s.set_visible_tags m).1.tags = s.tags := by
  obtain ⟨s', c, heq, htags, hprev, hvis', -, -⟩ := svt_success s m hm
  obtain ⟨hlt, hbits⟩ := svtScan_vis m s.tags 32 0 s.visible_tags none none (by omega) hvis
  rw [heq]
  refine ⟨?_, hprev, htags⟩
  rw [hvis']
  apply Nat.eq_of_testBit_eq
  intro k
  rw [hbits k]
  by_cases hk : k < 32
  · rw [if_pos (by omega)]
  · rw [if_neg (by omega)]
    rw [Nat.testBit_lt_two_pow (lt_of_lt_of_le hvis (Nat.pow_le_pow_right (by omega) (by omega))),
      Nat.testBit_lt_two_pow (lt_of_lt_of_le hm32 (Nat.pow_le_pow_right (by omega) (by omega)))]

/-! ### Lemmas about `modifyTag` -/

theorem modifyTag_length (tl : List Tag) (i : Nat) (f : Tag → Tag) :
    (modifyTag tl i f).length = tl.length := by
  unfold modifyTag
  split <;> simp

theorem modifyTag_oob (tl : List Tag) (i : Nat) (f : Tag → Tag)
    (h : tl.length ≤ i) : modifyTag tl i f = tl := by
  unfold modifyTag
  split
  · rename_i t ht
    rw [List.get?_eq_getElem?] at ht
    have := List.getElem?_eq_none (l := tl) h
    rw [this] at ht
    cases ht
  · rfl

theorem modifyTag_getD_self (tl : List Tag) (i : Nat) (f : Tag → Tag)
    (h : i < tl.length) :
    (modifyTag tl i f).getD i dTag = f (tl.getD i dTag) := by
  unfold modifyTag
  split
  · rename_i t ht
    rw [List.get?_eq_getElem?] at ht
    rw [List.getD_eq_getElem?_getD, List.getD_eq_getElem?_getD, List.getElem?_set_self h, ht]
    rfl
  · rename_i ht
    rw [List.get?_eq_getElem?, List.getElem?_eq_none_iff] at ht
    omega

theorem modifyTag_getD_ne (tl : List Tag) (i j : Nat) (f : Tag → Tag)
    (h : j ≠ i) :
    (modifyTag tl i f).getD j dTag = tl.getD j dTag := by
  unfold modifyTag
  split
  · rw [List.getD_eq_getElem?_getD, List.getD_eq_getElem?_getD, List.getElem?_set_ne (by omega)]
  · rfl

/-! ### Claim C3 -/

/-- C3: `set_visible_tags(mask)` fails exactly when `mask = 0`, and on that
failure the entire TagState is unchanged; `toggle_tag` on the sole visible tag
computes the zero mask and fails through the same check, also leaving the
state unchanged. -/
theorem C3_zero_mask_failure (s : State) (m t : Nat) :
    (m < 2 ^ 32 → ((s.set_visible_tags m).2 = none ↔ m = 0)) ∧
    (s.set_visible_tags 0).1 = s ∧
    (1 ≤ t → t ≤ 32 → s.visible_tags = 1 <<< (t - 1) →
      (s.toggle_tag t).2 = none ∧ (s.toggle_tag t).1 = s) := by
  refine ⟨fun _ => svt_fail_iff s m, by rw [svt_zero], fun ht1 ht2 hvis => ?_⟩
  have hpow : (1 <<< (t - 1) : Nat) = 2 ^ (t - 1) := by
    simp [Nat.shiftLeft_eq]
  have hcond : s.visible_tags.testBit (t - 1) = true := by
    rw [hvis, hpow, Nat.testBit_two_pow]
    simp
  have hmask : s.visible_tags &&& ((2 ^ 32 - 1) ^^^ (1 <<< (t - 1))) = 0 := by
    apply Nat.eq_of_testBit_eq
    intro k
    rw [Nat.testBit_and, Nat.testBit_xor, Nat.testBit_two_pow_sub_one,
      hvis, hpow, Nat.testBit_two_pow, Nat.zero_testBit]
    by_cases hk : t - 1 = k
    · subst hk
      simp
      omega
    · simp [hk]
  have htog : s.toggle_tag t = s.set_visible_tags 0 := by
    show s.set_visible_tags
        (if s.visible_tags.testBit (t - 1) = true then
          s.visible_tags &&& ((2 ^ 32 - 1) ^^^ (1 <<< (t - 1)))
        else s.visible_tags ||| (1 <<< (t - 1)))
      = s.set_visible_tags 0
    rw [hcond, if_pos rfl, hmask]
  rw [htog, svt_zero]
  exact ⟨rfl, rfl⟩

theorem C3_zero_mask_failure_witness :
    ((State.init.set_visible_tags 0).2 = none ∧ (State.init.set_visible_tags 5).2 ≠ none) ∧
    (State.init.set_visible_tags 0).1 = State.init ∧
    (State.init.toggle_tag 1).2 = none ∧ (State.init.toggle_tag 1).1 = State.init := by
  have h0 := C3_zero_mask_failure State.init 0 1
  have h5 := C3_zero_mask_failure State.init 5 1
  refine ⟨⟨(h0.1 (by norm_num)).mpr rfl, ?_⟩, h0.2.1, h0.2.2 (by norm_num) (by norm_num) rfl⟩
  intro hcon
  exact absurd ((h5.1 (by norm_num)).mp hcon) (by norm_num)

/-! ### Claim C10 -/

/-- C10: `focus_window_changed` on an already-tracked address changes only
`active_window` (all other fields, including every tag's window sequence, are
unchanged), and a subsequent `new_window_added` of a fresh address still
appends to the tag at the old `active_tag_index`. -/
theorem C10_focus_frame (s : State) (w w' : String) (i : Nat)
    (hw : find_window_tag_index s.tags w = some i)
    (hidx : s.active_tag_index < s.tags.length) :
    (s.focus_window_changed w).1 = { s with active_window := some w } ∧
    (s.focus_window_changed w).2 = some () ∧
    (find_window_tag_index s.tags w' = none →
      (((s.focus_window_changed w).1.new_window_added w').1.tags.getD
          s.active_tag_index dTag).window_addrs
        = (s.tags.getD s.active_tag_index dTag).window_addrs ++ [w'] ∧
      ∀ j, j ≠ s.active_tag_index →
        ((s.focus_window_changed w).1.new_window_added w').1.tags.getD j dTag
          = s.tags.getD j dTag) := by
  have hfoc : s.focus_window_changed w = ({ s with active_window := some w }, some ()) := by
    unfold State.focus_window_changed
    rw [hw]
  refine ⟨by rw [hfoc], by rw [hfoc], fun hw' => ?_⟩
  have htags : ((s.focus_window_changed w).1.new_window_added w').1.tags
      = modifyTag s.tags s.active_tag_index
        (fun t => { t with window_addrs := t.window_addrs ++ [w'] }) := by
    rw [hfoc]
    unfold State.new_window_added
    rw [show ({ s with active_window := some w } : State).tags = s.tags from rfl, hw']
  rw [htags]
  constructor
  · rw [modifyTag_getD_self s.tags s.active_tag_index _ hidx]
  · intro j hj
    exact modifyTag_getD_ne s.tags s.active_tag_index j _ hj

theorem C10_focus_frame_witness :
    ((State.init.new_window_added "a").1.focus_window_changed "a").1
      = { (State.init.new_window_added "a").1 with active_window := some "a" } ∧
    ((((State.init.new_window_added "a").1.focus_window_changed "a").1.new_window_added
        "b").1.tags.getD 0 dTag).window_addrs = ["a", "b"] := by
  have h := C10_focus_frame (State.init.new_window_added "a").1 "a" "b" 0
    (by decide) (by decide)
  refine ⟨h.1, ?_⟩
  have h3 := (h.2.2 (by decide)).1
  rw [show (State.init.new_window_added "a").1.active_tag_index = 0 from rfl] at h3
  rw [h3]
  decide

/-! ### Claim C6 -/

/-- C6: after `set_visible_tags(A); set_visible_tags(B)`, a
`restore_prev_tags` leaves `visible_tags = A`, and — because restore swaps
`prev_tags` with the then-current mask — a second consecutive restore returns
`visible_tags` to the mask held before the first restore (that is, `B`). -/
theorem C6_restore_law (s : State) (A B : Nat) (hA : A ≠ 0) (hA32 : A < 2 ^ 32)
    (hB : B ≠ 0) (hB32 : B < 2 ^ 32) (hvis : s.visible_tags < 2 ^ 32) :
    ((s.set_visible_tags A).1.set_visible_tags B).1.visible_tags = B ∧
    (((s.set_visible_tags A).1.set_visible_tags B).1.restore_prev_tags).1.visible_tags = A ∧
    ((((s.set_visible_tags A).1.set_visible_tags B).1.restore_prev_tags).1.restore_prev_tags).1.visible_tags
      = ((s.set_visible_tags A).1.set_visible_tags B).1.visible_tags := by
  obtain ⟨h1v, h1p, -⟩ := svt_visible_eq s A hA hA32 hvis
  obtain ⟨h2v, h2p, -⟩ := svt_visible_eq (s.set_visible_tags A).1 B hB hB32
    (by rw [h1v]; exact hA32)
  have hr1 : (((s.set_visible_tags A).1.set_visible_tags B).1.restore_prev_tags)
      = ((s.set_visible_tags A).1.set_visible_tags B).1.set_visible_tags A := by
    unfold State.restore_prev_tags
    rw [h2p, h1v]
  obtain ⟨h3v, h3p, -⟩ := svt_visible_eq ((s.set_visible_tags A).1.set_visible_tags B).1 A
    hA hA32 (by rw [h2v]; exact hB32)
  obtain ⟨h4v, -, -⟩ := svt_visible_eq
    (((s.set_visible_tags A).1.set_visible_tags B).1.set_visible_tags A).1 B hB hB32
    (by rw [h3v]; exact hA32)
  refine ⟨h2v, by rw [hr1, h3v], ?_⟩
  rw [hr1]
  have hr2 : ((((s.set_visible_tags A).1.set_visible_tags B).1.set_visible_tags A).1.restore_prev_tags)
      = ((((s.set_visible_tags A).1.set_visible_tags B).1.set_visible_tags A).1.set_visible_tags B) := by
    unfold State.restore_prev_tags
    rw [h3p, h2v]
  rw [hr2, h4v, h2v]

theorem C6_restore_law_witness :
    ((State.init.set_visible_tags 2).1.set_visible_tags 4).1.visible_tags = 4 ∧
    (((State.init.set_visible_tags 2).1.set_visible_tags 4).1.restore_prev_tags).1.visible_tags = 2 ∧
    ((((State.init.set_visible_tags 2).1.set_visible_tags 4).1.restore_prev_tags).1.restore_prev_tags).1.visible_tags
      = ((State.init.set_visible_tags 2).1.set_visible_tags 4).1.visible_tags :=
  C6_restore_law State.init 2 4 (by norm_num) (by norm_num) (by norm_num) (by norm_num)
    (by norm_num [State.init])

/-! ### Claim C4 -/

theorem window_diff_spec (W1 W2 : List WindowInfo) (a : String) :
    (hasAddr (window_diff W1 W2).1 a = true ↔
      hasAddr W2 a = true ∧ hasAddr W1 a = false) ∧
    (hasAddr (window_diff W1 W2).2 a = true ↔
      hasAddr W1 a = true ∧ hasAddr W2 a = false) := by
  constructor
  · rw [hasAddr_eq_true_iff]
    constructor
    · rintro ⟨v, hv, rfl⟩
      rw [mem_window_diff_fst] at hv
      exact ⟨(hasAddr_eq_true_iff _ _).mpr ⟨v, hv.1, rfl⟩, hv.2⟩
    · rintro ⟨h2, h1⟩
      obtain ⟨v, hv, rfl⟩ := (hasAddr_eq_true_iff _ _).mp h2
      exact ⟨v, (mem_window_diff_fst _ _ _).mpr ⟨hv, h1⟩, rfl⟩
  · rw [hasAddr_eq_true_iff]
    constructor
    · rintro ⟨v, hv, rfl⟩
      rw [mem_window_diff_snd] at hv
      exact ⟨(hasAddr_eq_true_iff _ _).mpr ⟨v, hv.1, rfl⟩, hv.2⟩
    · rintro ⟨h1, h2⟩
      obtain ⟨v, hv, rfl⟩ := (hasAddr_eq_true_iff _ _).mp h1
      exact ⟨v, (mem_window_diff_snd _ _ _).mpr ⟨hv, h2⟩, rfl⟩

/-- The address-level diff specification: `added = W2 − W1`,
`removed = W1 − W2` under address-only equality, disjointness, and the
patch law `(W1 ∖ removed) ∪ added = W2`. -/
def DiffSpec (s s' : State) (c : Changes) : Prop :=
  (∀ a, hasAddr c.window_added a = true ↔
    hasAddr s'.visible_windows a = true ∧ hasAddr s.visible_windows a = false) ∧
  (∀ a, hasAddr c.window_removed a = true ↔
    hasAddr s.visible_windows a = true ∧ hasAddr s'.visible_windows a = false) ∧
  (∀ a, ¬(hasAddr c.window_added a = true ∧ hasAddr c.window_removed a = true)) ∧
  (∀ a, hasAddr s'.visible_windows a = true ↔
    ((hasAddr s.visible_windows a = true ∧ hasAddr c.window_removed a = false) ∨
      hasAddr c.window_added a = true))

theorem diffSpec_of_diff (s s' : State) (c : Changes)
    (ha : c.window_added = (window_diff s.visible_windows s'.visible_windows).1)
    (hr : c.window_removed = (window_diff s.visible_windows s'.visible_windows).2) :
    DiffSpec s s' c := by
  have hfst := fun a => (window_diff_spec s.visible_windows s'.visible_windows a).1
  have hsnd := fun a => (window_diff_spec s.visible_windows s'.visible_windows a).2
  unfold DiffSpec
  rw [ha, hr]
  refine ⟨hfst, hsnd, fun a hcon => ?_, fun a => ?_⟩
  · obtain ⟨h1, h2⟩ := hcon
    rw [hfst a] at h1
    rw [hsnd a] at h2
    rw [h1.2] at h2
    cases h2.1
  · constructor
    · intro h2
      by_cases h1 : hasAddr s.visible_windows a = true
      · left
        refine ⟨h1, ?_⟩
        cases hR : hasAddr (window_diff s.visible_windows s'.visible_windows).2 a
        · rfl
        · rw [hsnd a] at hR
          rw [h2] at hR
          cases hR.2
      · right
        rw [hfst a]
        exact ⟨h2, by simpa using h1⟩
    · rintro (⟨h1, hnr⟩ | hadd)
      · by_contra h2
        have h2' : hasAddr s'.visible_windows a = false := by simpa using h2
        have : hasAddr (window_diff s.visible_windows s'.visible_windows).2 a = true :=
          (hsnd a).mpr ⟨h1, h2'⟩
        rw [this] at hnr
        cases hnr
      · exact ((hfst a).mp hadd).1

/-- Shape of a successful `move_window`: visibility mask untouched, changes
are the diff of the before/after snapshots, focus is `none`. -/
theorem move_success_shape (s : State) (d : Nat) (wo : Option String) (s' : State) (c : Changes)
    (heq : s.move_window d wo = (s', some c)) :
    s'.visible_tags = s.visible_tags ∧
    c.window_added = (window_diff (visible_windows_of s.tags s.visible_tags)
      (visible_windows_of s'.tags s'.visible_tags)).1 ∧
    c.window_removed = (window_diff (visible_windows_of s.tags s.visible_tags)
      (visible_windows_of s'.tags s'.visible_tags)).2 ∧
    c.focus = none := by
  unfold State.move_window at heq
  repeat' first
  | split at heq
  | simp only [] at heq
  all_goals (injection heq with h1 h2)
  all_goals cases h2
  all_goals (subst h1)
  all_goals exact ⟨rfl, rfl, rfl, rfl⟩

/-- C4: for every successful `set_visible_tags` and `move_window`, the
returned `Changes` satisfy `added = W2 − W1` and `removed = W1 − W2` as set
differences under address-only equality; hence `added` and `removed` are
disjoint and patching the old snapshot with them yields the new snapshot. -/
theorem C4_changes_are_diffs (s : State) (m d : Nat) (wo : Option String) :
    (∀ s' c, s.set_visible_tags m = (s', some c) → DiffSpec s s' c) ∧
    (∀ s' c, s.move_window d wo = (s', some c) → DiffSpec s s' c) := by
  constructor
  · intro s' c heq
    have hm : m ≠ 0 := by
      rintro rfl
      rw [svt_zero] at heq
      injection heq with h1 h2
      cases h2
    obtain ⟨s'', c'', heq', htags, -, -, hca, hcr⟩ := svt_success s m hm
    rw [heq] at heq'
    injection heq' with h1 h2
    injection h2 with h2
    subst h1
    subst h2
    apply diffSpec_of_diff
    · rw [hca, State.visible_windows, State.visible_windows, htags]
    · rw [hcr, State.visible_windows, State.visible_windows, htags]
  · intro s' c heq
    obtain ⟨-, hca, hcr, -⟩ := move_success_shape s d wo s' c heq
    exact diffSpec_of_diff s s' c hca hcr

theorem C4_changes_are_diffs_witness :
    DiffSpec (State.init.new_window_added "a").1
      ((State.init.new_window_added "a").1.set_visible_tags 2).1
      (((State.init.new_window_added "a").1.set_visible_tags 2).2.getD
        { window_added := [], window_removed := [], focus := none }) ∧
    DiffSpec (State.init.new_window_added "a").1
      ((State.init.new_window_added "a").1.move_window 2 (some "a")).1
      (((State.init.new_window_added "a").1.move_window 2 (some "a")).2.getD
        { window_added := [], window_removed := [], focus := none }) := by
  constructor
  · exact (C4_changes_are_diffs (State.init.new_window_added "a").1 2 2 (some "a")).1
      ((State.init.new_window_added "a").1.set_visible_tags 2).1 _ (by decide)
  · exact (C4_changes_are_diffs (State.init.new_window_added "a").1 2 2 (some "a")).2
      ((State.init.new_window_added "a").1.move_window 2 (some "a")).1 _ (by decide)

/-! ### Claim C1 -/

theorem exists_testBit_lt_32 (m : Nat) (hm : m ≠ 0) (hm32 : m < 2 ^ 32) :
    ∃ k, k < 32 ∧ m.testBit k = true := by
  by_contra h
  push_neg at h
  apply hm
  apply Nat.eq_of_testBit_eq
  intro k
  rw [Nat.zero_testBit]
  by_cases hk : k < 32
  · have := h k hk
    simpa using this
  · exact Nat.testBit_lt_two_pow
      (lt_of_lt_of_le hm32 (Nat.pow_le_pow_right (by omega) (by omega)))

/-- Branch structure of a successful `set_visible_tags`: either the active
window survives in a visible tag (and is kept, with its tag index), or the
active window is dropped and the scan's `first_tag_index` / `first_window`
are installed. -/
theorem svt_branches (s : State) (m : Nat) (hm : m ≠ 0) :
    ∃ s' c, s.set_visible_tags m = (s', some c) ∧
      ((∃ w i, s.active_window = some w ∧ find_window_tag_index s.tags w = some i ∧
          m.testBit i = true ∧ s'.active_window = some w ∧ s'.active_tag_index = i ∧
          c.focus = some w) ∨
       ((∀ w i, s.active_window = some w → find_window_tag_index s.tags w = some i →
          m.testBit i = false) ∧
        s'.active_window = none ∧
        s'.active_tag_index = (svtScan m s.tags 0 32 s.visible_tags none none).2.2.getD 0 ∧
        c.focus = (svtScan m s.tags 0 32 s.visible_tags none none).2.1)) := by
  unfold State.set_visible_tags
  rw [if_neg hm]
  rcases hscan : svtScan m s.tags 0 32 s.visible_tags none none with ⟨vis, fw, fti⟩
  simp only
  rw [hscan]
  rcases hd : window_diff (visible_windows_of s.tags s.visible_tags)
      (visible_windows_of s.tags vis) with ⟨wa, wr⟩
  rcases haw : s.active_window with _ | w
  · simp only
    refine ⟨_, _, rfl, ?_⟩
    apply Or.inr
    refine ⟨?_, ?_, ?_, ?_⟩
    · exact fun w i hcon => by cases hcon
    · rfl
    · rfl
    · rfl
  · simp only
    rcases hfind : find_window_tag_index s.tags w with _ | i
    · simp only
      refine ⟨_, _, rfl, Or.inr ⟨fun w' i hw' hf => ?_, rfl, rfl, rfl⟩⟩
      injection hw' with hw'
      subst hw'
      rw [hfind] at hf
      cases hf
    · simp only
      by_cases hbit : m.testBit i = true
      · rw [if_pos hbit]
        exact ⟨_, _, rfl, Or.inl ⟨w, i, rfl, hfind, hbit, rfl, rfl, rfl⟩⟩
      · rw [if_neg hbit]
        refine ⟨_, _, rfl, Or.inr ⟨fun w' i' hw' hf => ?_, rfl, rfl, rfl⟩⟩
        injection hw' with hw'
        subst hw'
        rw [hfind] at hf
        injection hf with hf
        subst hf
        simpa using hbit

/-- C1: after a successful `set_visible_tags(mask)`: if the active window is
present and tracked in a tag whose bit is set in `mask`, it is kept and
`active_tag_index` becomes that tag's index; otherwise `active_tag_index`
becomes the lowest set bit of `mask`, `active_window` becomes `none`, and the
reported focus is the first window of the lowest set bit of `mask` whose tag
is non-empty (`none` exactly when every visible tag is empty). -/
theorem C1_set_visible_tags_spec (s : State) (m : Nat) (hm : m ≠ 0)
    (hm32 : m < 2 ^ 32) (_hlen : s.tags.length = 32) :
    ∃ s' c, s.set_visible_tags m = (s', some c) ∧
      ((∃ w i, s.active_window = some w ∧ find_window_tag_index s.tags w = some i ∧
          m.testBit i = true ∧ s'.active_window = some w ∧ s'.active_tag_index = i ∧
          c.focus = some w) ∨
       ((∀ w i, s.active_window = some w → find_window_tag_index s.tags w = some i →
          m.testBit i = false) ∧
        s'.active_window = none ∧
        (m.testBit s'.active_tag_index = true ∧
          ∀ j, j < s'.active_tag_index → m.testBit j = false) ∧
        ((c.focus = none →
            ∀ k, k < 32 → m.testBit k = true → (s.tags.getD k dTag).window_addrs = []) ∧
         (∀ w, c.focus = some w →
            ∃ k, k < 32 ∧ m.testBit k = true ∧ (s.tags.getD k dTag).window_addrs ≠ [] ∧
              w = (s.tags.getD k dTag).window_addrs.headD "" ∧
              ∀ j, j < k → ¬(m.testBit j = true ∧ (s.tags.getD j dTag).window_addrs ≠ [])) ∧
         ((∃ k, k < 32 ∧ m.testBit k = true ∧ (s.tags.getD k dTag).window_addrs ≠ []) →
            c.focus ≠ none)))) := by
  obtain ⟨s', c, heq, hbr⟩ := svt_branches s m hm
  refine ⟨s', c, heq, ?_⟩
  rcases hbr with h | ⟨hguard, hactive, hati, hfocus⟩
  · exact Or.inl h
  · refine Or.inr ⟨hguard, hactive, ?_, ?_, ?_, ?_⟩
    · obtain ⟨k0, hk0, hbit0⟩ := exists_testBit_lt_32 m hm hm32
      have hne : (svtScan m s.tags 0 32 s.visible_tags none none).2.2 ≠ none := by
        intro hcon
        have := ((svtScan_fti_none m s.tags 32 0 s.visible_tags none).1.mp hcon) k0
          (by omega) (by omega)
        rw [hbit0] at this
        cases this
      rcases hfti : (svtScan m s.tags 0 32 s.visible_tags none none).2.2 with _ | j
      · exact absurd hfti hne
      · obtain ⟨-, -, hbj, hmin⟩ := (svtScan_fti_none m s.tags 32 0 s.visible_tags none).2 j hfti
        rw [hati, hfti]
        exact ⟨hbj, fun k hk => hmin k (by omega) hk⟩
    · intro hnone k hk hbit
      rw [hfocus] at hnone
      have := ((svtScan_fw_none m s.tags 32 0 s.visible_tags none).1.mp hnone) k
        (by omega) (by omega)
      unfold fwP at this
      push_neg at this
      exact this hbit
    · intro w hw
      rw [hfocus] at hw
      obtain ⟨k, -, hk32, hP, hhead, hmin⟩ :=
        (svtScan_fw_none m s.tags 32 0 s.visible_tags none).2 w hw
      refine ⟨k, by omega, hP.1, hP.2, hhead, fun j hj => ?_⟩
      exact hmin j (by omega) hj
    · rintro ⟨k, hk32, hbit, hne⟩ hnone
      rw [hfocus] at hnone
      have := ((svtScan_fw_none m s.tags 32 0 s.visible_tags none).1.mp hnone) k
        (by omega) (by omega)
      exact this ⟨hbit, hne⟩

theorem C1_set_visible_tags_spec_witness :
    ∃ s' c, (State.init.new_window_added "a").1.set_visible_tags 2 = (s', some c) ∧
      ((∃ w i, (State.init.new_window_added "a").1.active_window = some w ∧
          find_window_tag_index (State.init.new_window_added "a").1.tags w = some i ∧
          Nat.testBit 2 i = true ∧ s'.active_window = some w ∧ s'.active_tag_index = i ∧
          c.focus = some w) ∨
       ((∀ w i, (State.init.new_window_added "a").1.active_window = some w →
          find_window_tag_index (State.init.new_window_added "a").1.tags w = some i →
          Nat.testBit 2 i = false) ∧
        s'.active_window = none ∧
        (Nat.testBit 2 s'.active_tag_index = true ∧
          ∀ j, j < s'.active_tag_index → Nat.testBit 2 j = false) ∧
        ((c.focus = none →
            ∀ k, k < 32 → Nat.testBit 2 k = true →
              ((State.init.new_window_added "a").1.tags.getD k dTag).window_addrs = []) ∧
         (∀ w, c.focus = some w →
            ∃ k, k < 32 ∧ Nat.testBit 2 k = true ∧
              ((State.init.new_window_added "a").1.tags.getD k dTag).window_addrs ≠ [] ∧
              w = ((State.init.new_window_added "a").1.tags.getD k dTag).window_addrs.headD "" ∧
              ∀ j, j < k → ¬(Nat.testBit 2 j = true ∧
                ((State.init.new_window_added "a").1.tags.getD j dTag).window_addrs ≠ [])) ∧
         ((∃ k, k < 32 ∧ Nat.testBit 2 k = true ∧
            ((State.init.new_window_added "a").1.tags.getD k dTag).window_addrs ≠ []) →
            c.focus ≠ none)))) :=
  C1_set_visible_tags_spec (State.init.new_window_added "a").1 2 (by norm_num)
    (by norm_num) (by decide)

/-! ### Claim C5 -/

/-- C5: `move_window(dest_tag, window?)`, with the window defaulting to
`active_window`, fails exactly when there is no effective window, the
effective window is unknown, or its current tag already equals the
destination; on success the window is appended to the destination tag,
removed from its source tag, every other tag is untouched, and the returned
`focus` is `none`. -/
theorem C5_move_window (s : State) (dest : Nat) (wo : Option String)
    (hlen : s.tags.length = 32) (hd1 : 1 ≤ dest) (hd2 : dest ≤ 32) :
    ((s.move_window dest wo).2 = none ↔
      (orActive s wo = none ∨
       (∃ w, orActive s wo = some w ∧
         (find_window_indexes s.tags w = none ∨
          ∃ wi, find_window_indexes s.tags w = some (dest - 1, wi))))) ∧
    (∀ s' c w ti wi, s.move_window dest wo = (s', some c) →
      orActive s wo = some w →
      find_window_indexes s.tags w = some (ti, wi) →
      c.focus = none ∧
      (s'.tags.getD (dest - 1) dTag).window_addrs
        = (s.tags.getD (dest - 1) dTag).window_addrs ++ [w] ∧
      (s'.tags.getD ti dTag).window_addrs
        = (s.tags.getD ti dTag).window_addrs.eraseIdx wi ∧
      (∀ j, j ≠ dest - 1 → j ≠ ti → s'.tags.getD j dTag = s.tags.getD j dTag)) := by
  have hmod : (dest + 255) % 256 = dest - 1 := by omega
  have hmain : ∀ w, orActive s wo = some w →
      ((s.move_window dest wo).2 = none ↔
        (find_window_indexes s.tags w = none ∨
          ∃ wi, find_window_indexes s.tags w = some (dest - 1, wi))) ∧
      (∀ s' c ti wi, s.move_window dest wo = (s', some c) →
        find_window_indexes s.tags w = some (ti, wi) →
        c.focus = none ∧
        (s'.tags.getD (dest - 1) dTag).window_addrs
          = (s.tags.getD (dest - 1) dTag).window_addrs ++ [w] ∧
        (s'.tags.getD ti dTag).window_addrs
          = (s.tags.getD ti dTag).window_addrs.eraseIdx wi ∧
        (∀ j, j ≠ dest - 1 → j ≠ ti → s'.tags.getD j dTag = s.tags.getD j dTag)) := by
    intro w hw
    have hmove : s.move_window dest wo =
        (match find_window_indexes s.tags w with
        | none => (s, none)
        | some (tag_index, window_index) =>
          if dest - 1 = tag_index then (s, none)
          else
            match s.tags.get? (dest - 1) with
            | none => (s, none)
            | some _ =>
              let tl1 := modifyTag s.tags (dest - 1)
                (fun t => { t with window_addrs := t.window_addrs ++ [w] })
              let tl2 := modifyTag tl1 tag_index
                (fun t => { t with window_addrs := t.window_addrs.eraseIdx window_index })
              let s2 : State := { s with tags := tl2 }
              let d12 := window_diff (visible_windows_of s.tags s.visible_tags)
                (visible_windows_of tl2 s.visible_tags)
              (s2, some { window_added := d12.1, window_removed := d12.2, focus := none })) := by
      unfold State.move_window
      rw [hw, hmod]
    rcases hfind : find_window_indexes s.tags w with _ | ⟨ti0, wi0⟩
    · rw [hfind] at hmove
      simp only at hmove
      rw [hmove]
      constructor
      · simp
      · intro s' c ti wi heq hf
        cases hf
    · rw [hfind] at hmove
      simp only at hmove
      by_cases hti : dest - 1 = ti0
      · rw [if_pos hti] at hmove
        rw [hmove]
        constructor
        · simp only [true_iff]
          right
          refine ⟨wi0, ?_⟩
          rw [hti]
        · intro s' c ti wi heq hf
          injection heq with h1 h2
          cases h2
      · rw [if_neg hti] at hmove
        have hget : s.tags.get? (dest - 1) = some (s.tags.getD (dest - 1) dTag) := by
          rw [List.get?_eq_getElem?, List.getD_eq_getElem?_getD]
          have hlt : dest - 1 < s.tags.length := by omega
          rw [List.getElem?_eq_getElem hlt]
          rfl
        rw [hget] at hmove
        simp only at hmove
        constructor
        · rw [hmove]
          constructor
          · intro hcon
            cases hcon
          · rintro (hcon | ⟨wi', hcon⟩)
            · cases hcon
            · injection hcon with hcon
              injection hcon with hcon1 hcon2
              exact absurd hcon1.symm hti
        · intro s' c ti wi heq hf
          injection hf with hf
          injection hf with hf1 hf2
          subst hf1
          subst hf2
          rw [hmove] at heq
          injection heq with h1 h2
          injection h2 with h2
          subst h1
          subst h2
          have hlen1 : (modifyTag s.tags (dest - 1)
              (fun t => { t with window_addrs := t.window_addrs ++ [w] })).length
              = s.tags.length := modifyTag_length _ _ _
          obtain ⟨hti0lt, -, -⟩ := find_window_indexes_eq_some w s.tags ti0 wi0 hfind
          refine ⟨rfl, ?_, ?_, ?_⟩
          · show ((modifyTag (modifyTag s.tags (dest - 1) _) ti0 _).getD (dest - 1) dTag).window_addrs = _
            rw [modifyTag_getD_ne _ ti0 (dest - 1) _ hti,
              modifyTag_getD_self _ _ _ (by omega)]
          · show ((modifyTag (modifyTag s.tags (dest - 1) _) ti0 _).getD ti0 dTag).window_addrs = _
            rw [modifyTag_getD_self _ _ _ (by rw [hlen1]; omega),
              modifyTag_getD_ne _ (dest - 1) ti0 _ (Ne.symm hti)]
          · intro j hj1 hj2
            show (modifyTag (modifyTag s.tags (dest - 1) _) ti0 _).getD j dTag = _
            rw [modifyTag_getD_ne _ ti0 j _ hj2, modifyTag_getD_ne _ (dest - 1) j _ hj1]
  rcases hw : orActive s wo with _ | w
  · constructor
    · have hmove : s.move_window dest wo = (s, none) := by
        unfold State.move_window
        rw [hw]
      rw [hmove]
      simp
    · intro s' c w ti wi heq hcon
      cases hcon
  · obtain ⟨hiff, hsucc⟩ := hmain w hw
    constructor
    · rw [hiff]
      constructor
      · intro h
        exact Or.inr ⟨w, rfl, h⟩
      · rintro (hcon | ⟨w', hw', h⟩)
        · cases hcon
        · injection hw' with hw'
          subst hw'
          exact h
    · intro s' c w' ti wi heq hw' hf
      injection hw' with hw'
      subst hw'
      exact hsucc s' c ti wi heq hf

theorem C5_move_window_witness :
    (((State.init.new_window_added "a").1.move_window 2 none).2 = none ↔
      (orActive (State.init.new_window_added "a").1 none = none ∨
       (∃ w, orActive (State.init.new_window_added "a").1 none = some w ∧
         (find_window_indexes (State.init.new_window_added "a").1.tags w = none ∨
          ∃ wi, find_window_indexes (State.init.new_window_added "a").1.tags w
            = some (2 - 1, wi))))) ∧
    (∀ s' c w ti wi,
      (State.init.new_window_added "a").1.move_window 2 none = (s', some c) →
      orActive (State.init.new_window_added "a").1 none = some w →
      find_window_indexes (State.init.new_window_added "a").1.tags w = some (ti, wi) →
      c.focus = none ∧
      (s'.tags.getD (2 - 1) dTag).window_addrs
        = ((State.init.new_window_added "a").1.tags.getD (2 - 1) dTag).window_addrs ++ [w] ∧
      (s'.tags.getD ti dTag).window_addrs
        = ((State.init.new_window_added "a").1.tags.getD ti dTag).window_addrs.eraseIdx wi ∧
      (∀ j, j ≠ 2 - 1 → j ≠ ti →
        s'.tags.getD j dTag = (State.init.new_window_added "a").1.tags.getD j dTag)) :=
  C5_move_window (State.init.new_window_added "a").1 2 none (by decide)
    (by norm_num) (by norm_num)

/-! ### Claim C2: invariant machinery -/

/-- `a` is tracked in some tag of the tag list. -/
def Tracked (tl : List Tag) (a : String) : Prop :=
  ∃ j, j < tl.length ∧ a ∈ (tl.getD j dTag).window_addrs

theorem tracked_iff_mem (tl : List Tag) (a : String) :
    Tracked tl a ↔ ∃ t ∈ tl, a ∈ t.window_addrs := by
  constructor
  · rintro ⟨j, hj, hmem⟩
    exact ⟨tl.getD j dTag, getD_mem tl j dTag hj, hmem⟩
  · rintro ⟨t, ht, hmem⟩
    obtain ⟨j, hj, rfl⟩ := List.mem_iff_getElem.mp ht
    refine ⟨j, hj, ?_⟩
    rw [List.getD_eq_getElem?_getD, List.getElem?_eq_getElem hj]
    exact hmem

theorem tracked_of_find_some (tl : List Tag) (a : String) (i : Nat)
    (h : find_window_tag_index tl a = some i) : Tracked tl a := by
  obtain ⟨h1, h2⟩ := find_window_tag_index_eq_some a tl i h
  exact ⟨i, h1, h2⟩

theorem mem_eraseIdx_of_ne (a w : String) : ∀ (l : List String) (wi : Nat),
    wi < l.length → l.getD wi "" = w → a ≠ w → a ∈ l → a ∈ l.eraseIdx wi := by
  intro l
  induction l with
  | nil => simp
  | cons x xs ih =>
    intro wi hwi hget hne hmem
    cases wi with
    | zero =>
      simp only [List.getD_cons_zero] at hget
      rcases List.mem_cons.mp hmem with rfl | h
      · exact absurd hget hne
      · simpa [List.eraseIdx] using h
    | succ n =>
      simp only [List.getD_cons_succ] at hget
      rcases List.mem_cons.mp hmem with rfl | h
      · simp [List.eraseIdx]
      · simp only [List.eraseIdx, List.mem_cons]
        exact Or.inr (ih n (by simpa using hwi) hget hne h)

/-- Branch structure of `State::new_window_added`. -/
theorem nwa_cases (s : State) (w : String) :
    (∃ i, find_window_tag_index s.tags w = some i ∧ s.new_window_added w = (s, none)) ∨
    (find_window_tag_index s.tags w = none ∧ s.new_window_added w =
      ({ s with tags := (modifyTag s.tags s.active_tag_index (fun t => { t with window_addrs := t.window_addrs ++ [w] })) }, some ())) := by
  unfold State.new_window_added
  rcases hfind : find_window_tag_index s.tags w with _ | i
  · exact Or.inr ⟨rfl, rfl⟩
  · exact Or.inl ⟨i, rfl, rfl⟩

/-- Branch structure of `State::window_removed`. -/
theorem wr_cases (s : State) (w : String) :
    (find_window_indexes s.tags w = none ∧ s.window_removed w = (s, none)) ∨
    (∃ ti wi, find_window_indexes s.tags w = some (ti, wi) ∧
      s.window_removed w = ({ s with tags := (modifyTag s.tags ti (fun t => { t with window_addrs := t.window_addrs.eraseIdx wi })) }, some ())) := by
  unfold State.window_removed
  rcases hfind : find_window_indexes s.tags w with _ | ⟨ti, wi⟩
  · exact Or.inl ⟨rfl, rfl⟩
  · exact Or.inr ⟨ti, wi, rfl, rfl⟩

/-- Branch structure of `State::focus_window_changed`. -/
theorem fwc_cases (s : State) (w : String) :
    (∃ i, find_window_tag_index s.tags w = some i ∧
      s.focus_window_changed w = ({ s with active_window := some w }, some ())) ∨
    (find_window_tag_index s.tags w = none ∧
      s.focus_window_changed w =
        ({ s with tags := (modifyTag s.tags s.active_tag_index (fun t => { t with window_addrs := t.window_addrs ++ [w] })), active_window := some w }, some ())) := by
  unfold State.focus_window_changed
  rcases hfind : find_window_tag_index s.tags w with _ | i
  · refine Or.inr ⟨rfl, ?_⟩
    have hn : s.new_window_added w = ({ s with tags := (modifyTag s.tags s.active_tag_index (fun t => { t with window_addrs := t.window_addrs ++ [w] })) }, some ()) := by
      unfold State.new_window_added
      rw [hfind]
    rw [hn]
  · exact Or.inl ⟨i, rfl, rfl⟩

/-- Full shape of a successful `move_window`. -/
theorem move_full_shape (s : State) (d : Nat) (wo : Option String) (s' : State) (c : Changes)
    (heq : s.move_window d wo = (s', some c)) :
    ∃ w ti wi, orActive s wo = some w ∧
      find_window_indexes s.tags w = some (ti, wi) ∧
      (d + 255) % 256 ≠ ti ∧ (d + 255) % 256 < s.tags.length ∧
      s'.tags = modifyTag (modifyTag s.tags ((d + 255) % 256)
        (fun t => { t with window_addrs := t.window_addrs ++ [w] })) ti
        (fun t => { t with window_addrs := t.window_addrs.eraseIdx wi }) ∧
      s'.visible_tags = s.visible_tags ∧ s'.prev_tags = s.prev_tags ∧
      s'.active_tag_index = s.active_tag_index ∧ s'.active_window = s.active_window := by
  unfold State.move_window at heq
  rcases hw : orActive s wo with _ | w
  · rw [hw] at heq
    injection heq with h1 h2
    cases h2
  · rw [hw] at heq
    simp only at heq
    rcases hfind : find_window_indexes s.tags w with _ | ⟨ti, wi⟩
    · rw [hfind] at heq
      simp only at heq
      injection heq with h1 h2
      cases h2
    · rw [hfind] at heq
      simp only at heq
      by_cases hti : (d + 255) % 256 = ti
      · rw [if_pos hti] at heq
        injection heq with h1 h2
        cases h2
      · rw [if_neg hti] at heq
        rcases hget : s.tags.get? ((d + 255) % 256) with _ | t0
        · rw [hget] at heq
          simp only at heq
          injection heq with h1 h2
          cases h2
        · rw [hget] at heq
          simp only at heq
          injection heq with h1 h2
          injection h2 with h2
          subst h1
          have hlt : (d + 255) % 256 < s.tags.length := by
            by_contra hcon
            rw [List.get?_eq_getElem?, List.getElem?_eq_none (by omega)] at hget
            cases hget
          exact ⟨w, ti, wi, rfl, hfind, hti, hlt, rfl, rfl, rfl, rfl, rfl⟩

/-- The TagState operations (state.rs public interface). -/
inductive Op where
  | newWindow (w : String)
  | windowRemoved (w : String)
  | focusChanged (w : String)
  | setVisible (m : Nat)
  | toggleTag (t : Nat)
  | restorePrev
  | moveWindow (t : Nat) (w : Option String)
  deriving Repr, DecidableEq

/-- Run one operation; `none` marks a failed (`Err`) call, and arguments
outside the `u32`/`u8` domains of the Rust signatures — which panic in a
debug build — are also mapped to `none`. -/
def execOp (s : State) : Op → Option State
  | .newWindow w => (s.new_window_added w).2.map (fun _ => (s.new_window_added w).1)
  | .windowRemoved w => (s.window_removed w).2.map (fun _ => (s.window_removed w).1)
  | .focusChanged w => (s.focus_window_changed w).2.map (fun _ => (s.focus_window_changed w).1)
  | .setVisible m =>
    if m < 2 ^ 32 then (s.set_visible_tags m).2.map (fun _ => (s.set_visible_tags m).1)
    else none
  | .toggleTag t =>
    if 1 ≤ t ∧ t ≤ 32 then (s.toggle_tag t).2.map (fun _ => (s.toggle_tag t).1)
    else none
  | .restorePrev => (s.restore_prev_tags).2.map (fun _ => (s.restore_prev_tags).1)
  | .moveWindow t w =>
    if t ≤ 255 then (s.move_window t w).2.map (fun _ => (s.move_window t w).1)
    else none

/-- Invariant I3 of the spec, plus the structural facts the induction needs. -/
def InvS (s : State) : Prop :=
  s.tags.length = 32 ∧ s.active_tag_index < 32 ∧
    s.visible_tags < 2 ^ 32 ∧ s.prev_tags < 2 ^ 32 ∧
    (∀ w, s.active_window = some w → Tracked s.tags w)

theorem invS_init : InvS State.init := by
  refine ⟨by simp [State.init], by simp [State.init], by norm_num [State.init],
    by norm_num [State.init], fun w hcon => ?_⟩
  cases hcon

theorem tracked_modify_append (tl : List Tag) (i : Nat) (w a : String)
    (h : Tracked tl a) :
    Tracked (modifyTag tl i (fun t => { t with window_addrs := t.window_addrs ++ [w] })) a := by
  obtain ⟨j, hj, hmem⟩ := h
  refine ⟨j, by rw [modifyTag_length]; exact hj, ?_⟩
  by_cases hij : j = i
  · subst hij
    rw [modifyTag_getD_self tl j _ hj]
    simp only [List.mem_append]
    exact Or.inl hmem
  · rw [modifyTag_getD_ne tl i j _ hij]
    exact hmem

/-- `set_visible_tags` preserves the invariant. -/
theorem invS_svt (s : State) (m : Nat) (hinv : InvS s) (hm : m ≠ 0) (hm32 : m < 2 ^ 32) :
    InvS (s.set_visible_tags m).1 := by
  obtain ⟨hlen, hati, hvis, hprev, hI3⟩ := hinv
  obtain ⟨s', c, heq, hbr⟩ := svt_branches s m hm
  obtain ⟨s'', c'', heq', htags, hprev', hvis', -, -⟩ := svt_success s m hm
  rw [heq] at heq'
  injection heq' with h1 h2
  injection h2 with h2
  subst h1
  subst h2
  rw [heq]
  simp only
  obtain ⟨hscanlt, -⟩ := svtScan_vis m s.tags 32 0 s.visible_tags none none (by omega) hvis
  refine ⟨by rw [htags]; exact hlen, ?_, by rw [hvis']; exact hscanlt,
    by rw [hprev']; exact hvis, ?_⟩
  · rcases hbr with ⟨w, i, -, hfind, -, -, hatieq, -⟩ | ⟨-, -, hatieq, -⟩
    · rw [hatieq]
      obtain ⟨hi, -⟩ := find_window_tag_index_eq_some w s.tags i hfind
      omega
    · obtain ⟨k0, hk0, hbit0⟩ := exists_testBit_lt_32 m hm hm32
      have hne : (svtScan m s.tags 0 32 s.visible_tags none none).2.2 ≠ none := by
        intro hcon
        have := ((svtScan_fti_none m s.tags 32 0 s.visible_tags none).1.mp hcon) k0
          (by omega) (by omega)
        rw [hbit0] at this
        cases this
      rcases hfti : (svtScan m s.tags 0 32 s.visible_tags none none).2.2 with _ | j
      · exact absurd hfti hne
      · obtain ⟨-, hj32, -, -⟩ := (svtScan_fti_none m s.tags 32 0 s.visible_tags none).2 j hfti
        rw [hatieq, hfti]
        simpa using hj32
  · intro w hw
    rcases hbr with ⟨w', i, -, hfind, -, haw', -, -⟩ | ⟨-, haw', -, -⟩
    · rw [haw'] at hw
      injection hw with hw
      subst hw
      rw [htags]
      exact tracked_of_find_some s.tags w' i hfind
    · rw [haw'] at hw
      cases hw

/-- Single-step preservation: every successful operation except
`window_removed` of the currently active window preserves the invariant. -/
theorem invS_step (s s' : State) (op : Op) (hinv : InvS s)
    (hguard : ∀ w, op = Op.windowRemoved w → s.active_window ≠ some w)
    (hexec : execOp s op = some s') : InvS s' := by
  obtain ⟨hlen, hati, hvis, hprev, hI3⟩ := hinv
  cases op with
  | newWindow w =>
    simp only [execOp, Option.map_eq_some'] at hexec
    obtain ⟨u, hu, hs'⟩ := hexec
    rcases nwa_cases s w with ⟨i, -, herr⟩ | ⟨hnone, hok⟩
    · rw [herr] at hu
      cases hu
    · rw [hok] at hs' hu
      subst hs'
      refine ⟨by simpa [modifyTag_length] using hlen, hati, hvis, hprev, fun a ha => ?_⟩
      simp only at ha ⊢
      exact tracked_modify_append s.tags s.active_tag_index w a (hI3 a ha)
  | windowRemoved w =>
    simp only [execOp, Option.map_eq_some'] at hexec
    obtain ⟨u, hu, hs'⟩ := hexec
    rcases wr_cases s w with ⟨-, herr⟩ | ⟨ti, wi, hfind, hok⟩
    · rw [herr] at hu
      cases hu
    · rw [hok] at hs' hu
      subst hs'
      obtain ⟨hti, hwi, hgetw⟩ := find_window_indexes_eq_some w s.tags ti wi hfind
      refine ⟨by simpa [modifyTag_length] using hlen, hati, hvis, hprev, fun a ha => ?_⟩
      simp only at ha ⊢
      have hne : a ≠ w := fun hcon => hguard w rfl (hcon ▸ ha)
      obtain ⟨j, hj, hmem⟩ := hI3 a ha
      refine ⟨j, by rw [modifyTag_length]; exact hj, ?_⟩
      by_cases hij : j = ti
      · subst hij
        rw [modifyTag_getD_self s.tags j _ hj]
        exact mem_eraseIdx_of_ne a w _ wi hwi hgetw hne hmem
      · rw [modifyTag_getD_ne s.tags ti j _ hij]
        exact hmem
  | focusChanged w =>
    simp only [execOp, Option.map_eq_some'] at hexec
    obtain ⟨u, hu, hs'⟩ := hexec
    rcases fwc_cases s w with ⟨i, hfind, hok⟩ | ⟨hnone, hok⟩
    · rw [hok] at hs'
      subst hs'
      refine ⟨hlen, hati, hvis, hprev, fun a ha => ?_⟩
      simp only at ha ⊢
      injection ha with ha
      exact tracked_of_find_some s.tags a i (ha ▸ hfind)
    · rw [hok] at hs'
      subst hs'
      refine ⟨by simpa [modifyTag_length] using hlen, hati, hvis, hprev, fun a ha => ?_⟩
      simp only at ha ⊢
      injection ha with ha
      refine ⟨s.active_tag_index, by rw [modifyTag_length]; omega, ?_⟩
      rw [modifyTag_getD_self s.tags s.active_tag_index _ (by omega)]
      simp [ha]
  | setVisible m =>
    simp only [execOp] at hexec
    split at hexec
    · simp only [Option.map_eq_some'] at hexec
      obtain ⟨u, hu, hs'⟩ := hexec
      subst hs'
      have hm : m ≠ 0 := by
        intro hcon
        subst hcon
        rw [(svt_fail_iff s 0).mpr rfl] at hu
        cases hu
      exact invS_svt s m ⟨hlen, hati, hvis, hprev, hI3⟩ hm (by omega)
    · cases hexec
  | toggleTag t =>
    simp only [execOp] at hexec
    split at hexec
    · rename_i ht
      simp only [Option.map_eq_some'] at hexec
      obtain ⟨u, hu, hs'⟩ := hexec
      subst hs'
      unfold State.toggle_tag at hu ⊢
      have hmask : (if s.visible_tags.testBit (t - 1) = true then
          s.visible_tags &&& ((2 ^ 32 - 1) ^^^ (1 <<< (t - 1)))
        else s.visible_tags ||| (1 <<< (t - 1))) < 2 ^ 32 := by
        split
        · exact Nat.lt_of_le_of_lt Nat.and_le_left hvis
        · have : (1 <<< (t - 1) : Nat) = 2 ^ (t - 1) := by simp [Nat.shiftLeft_eq]
          rw [this]
          exact Nat.or_lt_two_pow hvis
            (Nat.pow_lt_pow_right (by omega) (by omega))
      have hm : (if s.visible_tags.testBit (t - 1) = true then
          s.visible_tags &&& ((2 ^ 32 - 1) ^^^ (1 <<< (t - 1)))
        else s.visible_tags ||| (1 <<< (t - 1))) ≠ 0 := by
        intro hcon
        rw [(svt_fail_iff s _).mpr hcon] at hu
        cases hu
      exact invS_svt s _ ⟨hlen, hati, hvis, hprev, hI3⟩ hm hmask
    · cases hexec
  | restorePrev =>
    simp only [execOp, Option.map_eq_some'] at hexec
    obtain ⟨u, hu, hs'⟩ := hexec
    subst hs'
    unfold State.restore_prev_tags at hu ⊢
    have hm : s.prev_tags ≠ 0 := by
      intro hcon
      rw [hcon, (svt_fail_iff s 0).mpr rfl] at hu
      cases hu
    exact invS_svt s s.prev_tags ⟨hlen, hati, hvis, hprev, hI3⟩ hm hprev
  | moveWindow t wdef =>
    simp only [execOp] at hexec
    split at hexec
    · simp only [Option.map_eq_some'] at hexec
      obtain ⟨c, hu, hs'⟩ := hexec
      have heq : s.move_window t wdef = ((s.move_window t wdef).1, some c) := by
        rw [← hu]
      obtain ⟨w, ti, wi, heff, hfind, hdne, hdlt, htags', hv', hp', ha', haw'⟩ :=
        move_full_shape s t wdef (s.move_window t wdef).1 c heq
      obtain ⟨hti, hwi, hgetw⟩ := find_window_indexes_eq_some w s.tags ti wi hfind
      subst hs'
      refine ⟨by rw [htags', modifyTag_length, modifyTag_length]; exact hlen,
        by rw [ha']; exact hati, by rw [hv']; exact hvis, by rw [hp']; exact hprev,
        fun a ha => ?_⟩
      rw [haw'] at ha
      obtain ⟨j, hj, hmem⟩ := hI3 a ha
      rw [htags']
      by_cases haw : a = w
      · refine ⟨(t + 255) % 256, by rw [modifyTag_length, modifyTag_length]; omega, ?_⟩
        rw [modifyTag_getD_ne _ ti _ _ hdne,
          modifyTag_getD_self s.tags _ _ hdlt]
        simp [haw]
      · refine ⟨j, by rw [modifyTag_length, modifyTag_length]; omega, ?_⟩
        by_cases hjti : j = ti
        · rw [hjti]
          rw [modifyTag_getD_self _ ti _ (by rw [modifyTag_length]; omega),
            modifyTag_getD_ne s.tags _ ti _ (by omega)]
          exact mem_eraseIdx_of_ne a w _ wi hwi hgetw haw (hjti ▸ hmem)
        · rw [modifyTag_getD_ne _ ti j _ hjti]
          by_cases hjd : j = (t + 255) % 256
          · rw [hjd]
            rw [modifyTag_getD_self s.tags _ _ (by omega)]
            simp only [List.mem_append]
            exact Or.inl (hjd ▸ hmem)
          · rw [modifyTag_getD_ne s.tags _ j _ hjd]
            exact hmem
    · cases hexec

/-- Reachability by successful operations from the initial state, where
`window_removed` is never applied to the currently active window. -/
inductive ReachSafe : State → Prop where
  | init : ReachSafe State.init
  | step {s s' : State} (op : Op) : ReachSafe s →
      (∀ w, op = Op.windowRemoved w → s.active_window ≠ some w) →
      execOp s op = some s' → ReachSafe s'

theorem reachSafe_invS (s : State) (h : ReachSafe s) : InvS s := by
  induction h with
  | init => exact invS_init
  | step op hr hguard hexec ih => exact invS_step _ _ op ih hguard hexec

/-- C2 counterexample: from the initial state, `focus_window_changed "a"`
followed by `window_removed "a"` both succeed, yet afterwards
`active_window = some "a"` while `"a"` appears in no tag — invariant I3 is
violated immediately after `window_removed` of the currently active window,
refuting the claim as stated. -/
theorem C2_I3_counterexample :
    ((execOp State.init (Op.focusChanged "a")).bind
      (fun s1 => execOp s1 (Op.windowRemoved "a"))).map
      (fun s2 => (s2.active_window, find_window_tag_index s2.tags "a"))
      = some (some "a", none) := by
  decide

/-- C2 (amended): invariant I3 — whenever `active_window = Some(w)`, the
address `w` appears in some tag — holds for every sequence of successful
operations from the initial state in which `window_removed` is never applied
to the currently active window.  (It does not survive `window_removed` of
the active window: the code leaves `active_window` dangling, see the
counterexample.) -/
theorem C2_I3_amended (s : State) (h : ReachSafe s) :
    ∀ w, s.active_window = some w → ∃ t ∈ s.tags, w ∈ t.window_addrs := by
  intro w hw
  exact (tracked_iff_mem s.tags w).mp ((reachSafe_invS s h).2.2.2.2 w hw)

theorem C2_I3_amended_witness :
    ∃ t ∈ ((execOp State.init (Op.focusChanged "a")).getD State.init).tags,
      "a" ∈ t.window_addrs := by
  have hstep : execOp State.init (Op.focusChanged "a")
      = some ((execOp State.init (Op.focusChanged "a")).getD State.init) := by
    rfl
  have hreach : ReachSafe ((execOp State.init (Op.focusChanged "a")).getD State.init) :=
    ReachSafe.step (Op.focusChanged "a") ReachSafe.init
      (fun w hcon => by cases hcon) hstep
  exact C2_I3_amended _ hreach "a" (by decide)

/-! ### Model of `main.rs` (the standalone event/control handler)

`main.rs` keeps its own `State`/`Tag` types and dispatches hyprctl command
strings directly.  The emitted batches are modelled as the flat list of
command strings in emission order.  `u32`/`u8` arithmetic follows
release-mode Rust (wrapping subtraction, masked shifts); a debug build
panics instead on out-of-range tags. -/

namespace Main

/-- `struct Tag` of `main.rs`. -/
structure Tag where
  id : Nat
  windows : List String
  deriving Repr, DecidableEq

/-- `struct State` of `main.rs`. -/
structure State where
  active_tags : Nat
  active_tag : Nat
  active_tag_index : Nat
  active_window : String
  tags : List Tag
  deriving Repr, DecidableEq

/-- `State::new()` of `main.rs`. -/
def State.init : State :=
  { active_tags := 1
    active_tag := 1
    active_tag_index := 0
    active_window := ""
    tags := (List.range 32).map (fun n => { id := n + 1, windows := [] }) }

/-- `enum Ctrl` of `main.rs`. -/
inductive Ctrl where
  | ShowTag (tag : Nat)
  | ToggleTag (tag : Nat)
  | MoveToTag (tag : Nat) (window : Option String)
  deriving Repr, DecidableEq

def dMTag : Tag := { id := 0, windows := [] }

/-- `format!("dispatch movetoworkspacesilent {},address:0x{}", ws, addr)`. -/
def silentCmd (ws : Nat) (addr : String) : String :=
  "dispatch movetoworkspacesilent " ++ toString ws ++ ",address:0x" ++ addr

/-- `format!("dispatch focuswindow address:0x{}", addr)`. -/
def focusCmd (addr : String) : String :=
  "dispatch focuswindow address:0x" ++ addr

/-- `tag - 1` on `u32`, wrapping (release mode; a debug build panics on 0). -/
def u32sub1 (t : Nat) : Nat := (t + (2 ^ 32 - 1)) % 2 ^ 32

/-- `if let Some(t) = tags.get_mut(i) { .. }`-style in-place update. -/
def modifyMTag (tl : List Tag) (i : Nat) (f : Tag → Tag) : List Tag :=
  match tl.get? i with
  | some t => tl.set i (f t)
  | none => tl

/-- Inner window search of the `find_map` queries in `main.rs`. -/
def findWinIdx (addr : String) : List String → Nat → Option Nat
  | [], _ => none
  | w :: ws, i => if w = addr then some i else findWinIdx addr ws (i + 1)

/-- `state.tags.iter_mut().enumerate().find_map(..)` of `main.rs`. -/
def findMPairFrom (addr : String) : List Tag → Nat → Option (Nat × Nat)
  | [], _ => none
  | t :: ts, i =>
    match findWinIdx addr t.windows 0 with
    | some wi => some (i, wi)
    | none => findMPairFrom addr ts (i + 1)

def findMPair (tl : List Tag) (addr : String) : Option (Nat × Nat) :=
  findMPairFrom addr tl 0

/-- One iteration of the `Ctrl::ShowTag` loop: the hyprctl batch emitted for
bit `n` (hide other visible tags, reveal the hidden target tag with a focus
command). -/
def showTagBatch (st : State) (ti : Nat) (n : Nat) : List String :=
  if st.active_tags.testBit n then
    if n ≠ ti then (st.tags.getD n dMTag).windows.map (fun w => silentCmd (100 + n) w)
    else []
  else
    if n = ti then
      let t := st.tags.getD n dMTag
      let shown := t.windows.map (fun w => silentCmd 1 w)
      let foc :=
        match t.windows.find? (fun w => w == st.active_window) with
        | some f => [focusCmd f]
        | none =>
          match t.windows.head? with
          | some f => [focusCmd f]
          | none => []
      shown ++ foc
    else []

/-- The focus command emitted at the end of `Ctrl::ToggleTag`: first visible
window equal to `active_window`, or else the first visible window. -/
def toggleFocus (st1 : State) : List String :=
  let windows := (List.range 32).foldl
    (fun acc n => if st1.active_tags.testBit n then acc ++ (st1.tags.getD n dMTag).windows
      else acc) []
  match windows.find? (fun w => w == st1.active_window) with
  | some f => [focusCmd f]
  | none =>
    match windows.head? with
    | some f => [focusCmd f]
    | none => []

/-- `handle_ctrl` of `main.rs`: returns the updated state and the emitted
hyprctl commands, in order. -/
def handle_ctrl (st : State) : Ctrl → State × List String
  | .ShowTag tag =>
    let target_index := u32sub1 tag
    let emitted := (List.range 32).foldl
      (fun acc n => acc ++ showTagBatch st target_index n) []
    ({ st with
        active_tag := tag % 2 ^ 8
        active_tags := 1 <<< (target_index % 32)
        active_tag_index := target_index }, emitted)
  | .ToggleTag tag =>
    let target_index := u32sub1 tag
    if st.active_tags.testBit (target_index % 32) = false then
      match st.tags.get? target_index with
      | none => (st, [])
      | some t =>
        let emitted := t.windows.map (fun w => silentCmd 1 w)
        let st1 := { st with active_tags := st.active_tags ||| (1 <<< (target_index % 32)) }
        (st1, emitted ++ toggleFocus st1)
    else
      let active_tags := st.active_tags &&& ((2 ^ 32 - 1) ^^^ (1 <<< (target_index % 32)))
      if active_tags = 0 then (st, [])
      else
        match st.tags.get? target_index with
        | none => (st, [])
        | some t =>
          let emitted := t.windows.map (fun w => silentCmd (100 + target_index) w)
          let st1 := { st with active_tags := active_tags }
          (st1, emitted ++ toggleFocus st1)
  | .MoveToTag tag window =>
    let target_index := u32sub1 tag
    let w :=
      match window with
      | some w => w
      | none => st.active_window
    if w = "" then (st, [])
    else
      match findMPair st.tags w with
      | none => (st, [])
      | some (tag_index, window_index) =>
        if tag_index = target_index then (st, [])
        else
          let st1 : State := { st with tags := (modifyMTag st.tags tag_index (fun t => { t with windows := t.windows.eraseIdx window_index })) }
          match st1.tags.get? target_index with
          | none => (st1, [])
          | some tt =>
            let st2 : State := { st1 with tags := (modifyMTag st1.tags target_index (fun t => { t with windows := t.windows ++ [w] })) }
            if st2.active_tag = tt.id then (st2, [silentCmd 1 w])
            else (st2, [silentCmd (100 + target_index) w])

/-- `p.split(" ")` at the character level: empty pieces are preserved, as in
Rust's `str::split`. -/
def splitSpaceAux : List Char → List (List Char)
  | [] => [[]]
  | c :: rest =>
    let r := splitSpaceAux rest
    if c = ' ' then [] :: r
    else
      match r with
      | [] => [[c]]
      | hd :: tl => (c :: hd) :: tl

def splitSpace (s : String) : List String :=
  (splitSpaceAux s.data).map (fun l => String.mk l)

/-- Digit accumulation of `str::parse::<u32>`. -/
def parseDigitsAux : List Char → Nat → Option Nat
  | [], acc => some acc
  | c :: rest, acc =>
    if '0' ≤ c ∧ c ≤ '9' then
      parseDigitsAux rest (acc * 10 + (c.toNat - Char.toNat '0'))
    else none

/-- `args[0].parse::<u32>()`: an ASCII decimal parse that fails on the empty
string, on non-digit characters, and on `u32` overflow.  (Rust additionally
accepts one leading `+`, which no claim exercises.) -/
def parseU32 (s : String) : Option Nat :=
  match s.data with
  | [] => none
  | cs =>
    match parseDigitsAux cs 0 with
    | some n => if n < 2 ^ 32 then some n else none
    | none => none

/-- The command dispatch of `handle_ctrl_socket` on one (newline-stripped)
control line: `p.split(" ")`, then `move`/`show`/`toggle` with a `u32` tag
argument; anything else — including a tag that fails to parse — is dropped
before reaching the state machine. -/
def parseCtrlLine (p : String) : Option Ctrl :=
  match splitSpace p with
  | [] => none
  | cmd :: args =>
    match cmd with
    | "move" =>
      match args with
      | [] => none
      | a :: _ => (parseU32 a).map (fun t => Ctrl.MoveToTag t none)
    | "show" =>
      match args with
      | [] => none
      | a :: _ => (parseU32 a).map Ctrl.ShowTag
    | "toggle" =>
      match args with
      | [] => none
      | a :: _ => (parseU32 a).map Ctrl.ToggleTag
    | _ => none

/-- A state with one window `"aaaa"` on tag 1 (visible, focused) and one
window `"bbbb"` on tag 2 (also visible). -/
def sampleState : State :=
  { active_tags := 3
    active_tag := 1
    active_tag_index := 0
    active_window := "aaaa"
    tags := (List.range 32).map
      (fun n => { id := n + 1, windows := if n = 0 then ["aaaa"] else if n = 1 then ["bbbb"] else [] }) }

end Main

/-! ### Claim C8 -/

theorem mem_foldl_append {α : Type} (g : Nat → List α) (x : α) :
    ∀ (l : List Nat) (acc : List α),
      (x ∈ l.foldl (fun a n => a ++ g n) acc ↔ x ∈ acc ∨ ∃ n ∈ l, x ∈ g n) := by
  intro l
  induction l with
  | nil => simp
  | cons y ys ih =>
    intro acc
    simp only [List.foldl_cons]
    rw [ih]
    simp only [List.mem_append, List.mem_cons]
    constructor
    · rintro (⟨h | h⟩ | ⟨n, hn, hx⟩)
      · exact Or.inl h
      · exact Or.inr ⟨y, Or.inl rfl, h⟩
      · exact Or.inr ⟨n, Or.inr hn, hx⟩
    · rintro (h | ⟨n, rfl | hn, hx⟩)
      · exact Or.inl (Or.inl h)
      · exact Or.inl (Or.inr hx)
      · exact Or.inr ⟨n, hn, hx⟩

theorem u32sub1_eq (t : Nat) (h1 : 1 ≤ t) (h2 : t ≤ 32) : Main.u32sub1 t = t - 1 := by
  unfold Main.u32sub1
  omega

/-- C8 counterexample: on a state whose tag 1 (the owning tag of window
`"aaaa"`) is visible, `show 2` hides `"aaaa"` into workspace `100`
(`100 + (tag_id − 1)`), not workspace `101 = tag_id + 100 + 32·0` as the
claimed formula `tag_id + 100 + 32·monitor_index` demands. -/
theorem C8_parking_counterexample :
    (Main.handle_ctrl Main.sampleState (Main.Ctrl.ShowTag 2)).2
      = [Main.silentCmd 100 "aaaa"] ∧
    Main.silentCmd 101 "aaaa" ∉ (Main.handle_ctrl Main.sampleState (Main.Ctrl.ShowTag 2)).2 := by
  decide

/-- C8 (amended): for every window a dispatched `show`/`toggle` batch hides,
the emitted command targets workspace `100 + (tag_id − 1)` — no monitor
term — and for every window it reveals, the emitted command targets
workspace `1`. -/
theorem C8_parking_workspaces (st : Main.State) (tag : Nat)
    (h1 : 1 ≤ tag) (h2 : tag ≤ 32) :
    (∀ n w, n < 32 → st.active_tags.testBit n = true → n ≠ tag - 1 →
      w ∈ (st.tags.getD n Main.dMTag).windows →
      Main.silentCmd (100 + n) w ∈ (Main.handle_ctrl st (Main.Ctrl.ShowTag tag)).2) ∧
    (st.active_tags.testBit (tag - 1) = false →
      ∀ w, w ∈ (st.tags.getD (tag - 1) Main.dMTag).windows →
      Main.silentCmd 1 w ∈ (Main.handle_ctrl st (Main.Ctrl.ShowTag tag)).2) ∧
    (st.active_tags.testBit (tag - 1) = false → tag - 1 < st.tags.length →
      ∀ w, w ∈ (st.tags.getD (tag - 1) Main.dMTag).windows →
      Main.silentCmd 1 w ∈ (Main.handle_ctrl st (Main.Ctrl.ToggleTag tag)).2) ∧
    (st.active_tags.testBit (tag - 1) = true →
      st.active_tags &&& ((2 ^ 32 - 1) ^^^ (1 <<< (tag - 1))) ≠ 0 →
      tag - 1 < st.tags.length →
      ∀ w, w ∈ (st.tags.getD (tag - 1) Main.dMTag).windows →
      Main.silentCmd (100 + (tag - 1)) w ∈ (Main.handle_ctrl st (Main.Ctrl.ToggleTag tag)).2) := by
  have hsub := u32sub1_eq tag h1 h2
  have hmod : (tag - 1) % 32 = tag - 1 := by omega
  refine ⟨?_, ?_, ?_, ?_⟩
  · intro n w hn hbit hne hw
    show Main.silentCmd (100 + n) w ∈ (List.range 32).foldl
      (fun acc k => acc ++ Main.showTagBatch st (Main.u32sub1 tag) k) []
    rw [mem_foldl_append]
    refine Or.inr ⟨n, List.mem_range.mpr hn, ?_⟩
    unfold Main.showTagBatch
    rw [hsub, if_pos hbit, if_pos hne]
    exact List.mem_map_of_mem _ hw
  · intro hbit w hw
    show Main.silentCmd 1 w ∈ (List.range 32).foldl
      (fun acc k => acc ++ Main.showTagBatch st (Main.u32sub1 tag) k) []
    rw [mem_foldl_append]
    refine Or.inr ⟨tag - 1, List.mem_range.mpr (by omega), ?_⟩
    unfold Main.showTagBatch
    rw [hsub, hbit]
    simp only [Bool.false_eq_true, if_false, if_true, List.mem_append]
    exact Or.inl (List.mem_map_of_mem _ hw)
  · intro hbit hlt w hw
    have hget : st.tags.get? (tag - 1) = some (st.tags.getD (tag - 1) Main.dMTag) := by
      rw [List.get?_eq_getElem?, List.getD_eq_getElem?_getD, List.getElem?_eq_getElem hlt]
      rfl
    show Main.silentCmd 1 w ∈ (Main.handle_ctrl st (Main.Ctrl.ToggleTag tag)).2
    simp only [Main.handle_ctrl]
    rw [hsub, hmod, hbit]
    rw [hget]
    exact List.mem_append_left _ (List.mem_map_of_mem _ hw)
  · intro hbit hne0 hlt w hw
    have hget : st.tags.get? (tag - 1) = some (st.tags.getD (tag - 1) Main.dMTag) := by
      rw [List.get?_eq_getElem?, List.getD_eq_getElem?_getD, List.getElem?_eq_getElem hlt]
      rfl
    show Main.silentCmd (100 + (tag - 1)) w ∈ (Main.handle_ctrl st (Main.Ctrl.ToggleTag tag)).2
    simp only [Main.handle_ctrl]
    rw [hsub, hmod, hbit]
    simp only [Bool.true_eq_false, if_false]
    rw [if_neg hne0, hget]
    exact List.mem_append_left _ (List.mem_map_of_mem _ hw)

theorem C8_parking_workspaces_witness :
    Main.silentCmd 100 "aaaa" ∈
      (Main.handle_ctrl Main.sampleState (Main.Ctrl.ShowTag 2)).2 ∧
    Main.silentCmd 101 "bbbb" ∈
      (Main.handle_ctrl Main.sampleState (Main.Ctrl.ToggleTag 2)).2 :=
  ⟨(C8_parking_workspaces Main.sampleState 2 (by norm_num) (by norm_num)).1 0 "aaaa"
      (by norm_num) (by decide) (by norm_num) (by decide),
   (C8_parking_workspaces Main.sampleState 2 (by norm_num) (by norm_num)).2.2.2
      (by decide) (by decide) (by decide) "bbbb" (by decide)⟩

/-! ### Claim C9 -/

/-- C9: a `show` command with a tag outside `1..=32` is *not* dropped: the
parser accepts any `u32`, the command reaches `handle_ctrl`, outbound
hyprctl commands are emitted, and the state is mutated (here `show 33` hides
both visible windows, sets `active_tag := 33` and `active_tag_index := 32`).
This refutes the claim and exhibits the code bug at the failing input
`show 33`. -/
theorem C9_out_of_range_tag_reaches_state :
    Main.parseCtrlLine "show 33" = some (Main.Ctrl.ShowTag 33) ∧
    (Main.handle_ctrl Main.sampleState (Main.Ctrl.ShowTag 33)).2
      = [Main.silentCmd 100 "aaaa", Main.silentCmd 101 "bbbb"] ∧
    (Main.handle_ctrl Main.sampleState (Main.Ctrl.ShowTag 33)).1.active_tag = 33 ∧
    (Main.handle_ctrl Main.sampleState (Main.Ctrl.ShowTag 33)).1.active_tag_index = 32 ∧
    (Main.handle_ctrl Main.sampleState (Main.Ctrl.ShowTag 33)).1 ≠ Main.sampleState ∧
    Main.parseCtrlLine "show abc" = none ∧
    Main.parseCtrlLine "frob 3" = none := by
  refine ⟨by decide, ?_, by decide, by decide, by decide, by decide, by decide⟩
  decide

/-! ### Model of `monitor.rs` (the MonitorSet)

Operation results are `MonitorsState × Option α` as for `State`; an
out-of-range `self.monitors[i]` index — a panic in Rust — is modelled as
failure.  The `Changes` wrappers only copy `active_monitor_index` next to the
TagState's `Changes` and are irrelevant to the tracking claims, so the
modelled operations return the state alone. -/

/-- `struct Monitor` of `monitor.rs`. -/
structure Monitor where
  id : Nat
  name : String
  state : State
  deriving Repr, DecidableEq

/-- `struct MonitorsState` of `monitor.rs`. -/
structure MonitorsState where
  monitors : List Monitor
  active_monitor_index : Nat
  deriving Repr, DecidableEq

/-- `struct MonitorInfo` of `hyprctl.rs`. -/
structure MonitorInfo where
  id : Nat
  name : String
  focused : Bool
  deriving Repr, DecidableEq

def dMon : Monitor := { id := 0, name := "", state := State.init }

/-- First index satisfying a predicate (the
`iter().enumerate().find_map(..)` pattern of `monitor.rs`). -/
def findIdxFrom {α : Type} (p : α → Bool) : List α → Nat → Option Nat
  | [], _ => none
  | x :: xs, i => if p x then some i else findIdxFrom p xs (i + 1)

/-- `impl From<Vec<MonitorInfo>> for MonitorsState`: one fresh `State::new()`
per monitor, focused monitor (or 0) active. -/
def MonitorsState.fromInfos (infos : List MonitorInfo) : MonitorsState :=
  { monitors := infos.map (fun m => { id := m.id, name := m.name, state := State.init })
    active_monitor_index := (findIdxFrom (fun m => m.focused) infos 0).getD 0 }

/-- Modelled from the spec: `State::all_window_addrs`, called by
`monitor_removed` but absent from `state.rs` as given; per the spec every
window of the departing monitor is migrated, so this returns the addresses
of all tags' windows. -/
def State.all_window_addrs (s : State) : List String :=
  s.tags.foldl (fun acc t => acc ++ t.window_addrs) []

/-- Modelled from the spec: `monitor.rs` calls a two-argument
`State::focus_window_changed(window, new_window)` that is absent from
`state.rs` as given.  Per the spec (§4.1, §4.2) the address is implicitly
added via `new_window_added` when unknown — the caller passes
`new_window = true` exactly when no monitor tracks it — and `active_window`
is then recorded. -/
def State.focus_window_changed2 (s : State) (w : String) (new_window : Bool) :
    State × Option Unit :=
  if new_window then
    match s.new_window_added w with
    | (s1, none) => (s1, none)
    | (s1, some _) => ({ s1 with active_window := some w }, some ())
  else ({ s with active_window := some w }, some ())

/-- `self.monitors[self.active_monitor_index].state.<op>` with write-back:
the delegation pattern of `monitor.rs` (an out-of-range index panics in
Rust; modelled as failure). -/
def MonitorsState.delegate {α : Type} (ms : MonitorsState) (f : State → State × Option α) :
    MonitorsState × Option α :=
  match ms.monitors.get? ms.active_monitor_index with
  | none => (ms, none)
  | some m =>
    match f m.state with
    | (s', r) =>
      ({ ms with monitors := ms.monitors.set ms.active_monitor_index { m with state := s' } }, r)

/-- The `for (i, monitor) in self.monitors.iter().enumerate()` check of
`MonitorsState::new_window_added`: is the address tracked on any monitor
other than the active one? -/
def MonitorsState.otherHasWindow (ms : MonitorsState) (w : String) : Bool :=
  (List.range ms.monitors.length).any (fun i =>
    i ≠ ms.active_monitor_index &&
      (find_window_tag_index (ms.monitors.getD i dMon).state.tags w).isSome)

/-- `MonitorsState::new_window_added`. -/
def MonitorsState.new_window_added (ms : MonitorsState) (w : String) :
    MonitorsState × Option Unit :=
  if ms.otherHasWindow w then (ms, none)
  else ms.delegate (fun s => s.new_window_added w)

/-- `MonitorsState::window_removed`. -/
def MonitorsState.window_removed (ms : MonitorsState) (w : String) :
    MonitorsState × Option Unit :=
  ms.delegate (fun s => s.window_removed w)

/-- `self.monitors.iter_mut().find_map(|m| m.state.window_removed(..).ok())`
of `move_window_to_monitor`: remove the address from the first monitor that
has it. -/
def removeFromFirst (w : String) : List Monitor → Option (List Monitor)
  | [] => none
  | m :: rest =>
    match m.state.window_removed w with
    | (s', some _) => some ({ m with state := s' } :: rest)
    | (_, none) => (removeFromFirst w rest).map (fun r => m :: r)

/-- `MonitorsState::move_window_to_monitor` (note the mid-failure mutation:
if the destination index is invalid the removal has already happened,
faithful to the `&mut self` code). -/
def MonitorsState.move_window_to_monitor (ms : MonitorsState) (dest : Nat)
    (window : Option String) : MonitorsState × Option Unit :=
  let window? :=
    match window with
    | some w => some w
    | none =>
      match ms.monitors.get? ms.active_monitor_index with
      | some m => m.state.active_window
      | none => none
  match window? with
  | none => (ms, none)
  | some w =>
    match removeFromFirst w ms.monitors with
    | none => (ms, none)
    | some ml =>
      let ms1 : MonitorsState := { ms with monitors := ml }
      match ml.get? dest with
      | none => (ms1, none)
      | some dm =>
        match dm.state.new_window_added w with
        | (s', r) =>
          ({ ms1 with monitors := ml.set dest { dm with state := s' } }, r)

/-- `MonitorsState::focus_window_changed`: `new_window` is true iff no
monitor tracks the address; then delegate to the active monitor. -/
def MonitorsState.focus_window_changed (ms : MonitorsState) (w : String) :
    MonitorsState × Option Unit :=
  let new_window :=
    (ms.monitors.find? (fun m => (find_window_tag_index m.state.tags w).isSome)).isNone
  ms.delegate (fun s => s.focus_window_changed2 w new_window)

def MonitorsState.move_window (ms : MonitorsState) (t : Nat) (w : Option String) :
    MonitorsState × Option Unit :=
  match ms.delegate (fun s => s.move_window t w) with
  | (ms', r) => (ms', r.map (fun _ => ()))

def MonitorsState.set_visible_tags (ms : MonitorsState) (m : Nat) :
    MonitorsState × Option Unit :=
  match ms.delegate (fun s => s.set_visible_tags m) with
  | (ms', r) => (ms', r.map (fun _ => ()))

def MonitorsState.toggle_tag (ms : MonitorsState) (t : Nat) :
    MonitorsState × Option Unit :=
  match ms.delegate (fun s => s.toggle_tag t) with
  | (ms', r) => (ms', r.map (fun _ => ()))

def MonitorsState.restore_prev_tags (ms : MonitorsState) :
    MonitorsState × Option Unit :=
  match ms.delegate (fun s => s.restore_prev_tags) with
  | (ms', r) => (ms', r.map (fun _ => ()))

def MonitorsState.focused_monitor_changed (ms : MonitorsState) (name : String) :
    MonitorsState × Option Unit :=
  match findIdxFrom (fun m => m.name == name) ms.monitors 0 with
  | some i => ({ ms with active_monitor_index := i }, some ())
  | none => (ms, none)

/-- The `for w in windows` migration loop of `monitor_removed`, with the `?`
early exit. -/
def migrateAll (dest : Nat) : MonitorsState → List String → MonitorsState × Option Unit
  | ms, [] => (ms, some ())
  | ms, w :: ws =>
    match ms.move_window_to_monitor dest (some w) with
    | (ms1, some _) => migrateAll dest ms1 ws
    | (ms1, none) => (ms1, none)

/-- `MonitorsState::monitor_removed`: migrate every window of the departing
monitor to the first surviving monitor (addressed by its `id`, as the code
does), then drop the entry. -/
def MonitorsState.monitor_removed (ms : MonitorsState) (name : String) :
    MonitorsState × Option Unit :=
  match findIdxFrom (fun m => m.name == name) ms.monitors 0 with
  | none => (ms, none)
  | some removed_index =>
    match ms.monitors.find? (fun m => !(m.name == name)) with
    | none => (ms, none)
    | some first_monitor =>
      let windows := (ms.monitors.getD removed_index dMon).state.all_window_addrs
      match migrateAll first_monitor.id ms windows with
      | (ms1, none) => (ms1, none)
      | (ms2, some _) =>
        ({ ms2 with monitors := ms2.monitors.eraseIdx removed_index }, some ())

/-- `MonitorsState::monitor_added_with_object`, restricted to the monitors
the `monitor_added` task actually posts: a fresh `State::new()` under the
queried id and name. -/
def MonitorsState.monitor_added_obj (ms : MonitorsState) (id : Nat) (name : String) :
    MonitorsState × Option Unit :=
  if ms.monitors.any (fun m => m.name == name) then (ms, none)
  else ({ ms with monitors := ms.monitors ++ [{ id := id, name := name, state := State.init }] },
    some ())

/-- The MonitorSet operations. -/
inductive MOp where
  | focusedMonitorChanged (name : String)
  | newWindowAdded (w : String)
  | windowRemoved (w : String)
  | moveWindowToMonitor (dest : Nat) (w : Option String)
  | focusWindowChanged (w : String)
  | moveWindow (t : Nat) (w : Option String)
  | setVisibleTags (m : Nat)
  | toggleTag (t : Nat)
  | restorePrevTags
  | monitorRemoved (name : String)
  | monitorAdded (id : Nat) (name : String)
  deriving Repr, DecidableEq

/-- Run one MonitorSet operation; `none` marks a failed call (including
indexing panics and, as for `execOp`, arguments outside the `u32`/`u8`
domains of the Rust signatures). -/
def execMOp (ms : MonitorsState) : MOp → Option MonitorsState
  | .focusedMonitorChanged name =>
    (ms.focused_monitor_changed name).2.map (fun _ => (ms.focused_monitor_changed name).1)
  | .newWindowAdded w => (ms.new_window_added w).2.map (fun _ => (ms.new_window_added w).1)
  | .windowRemoved w => (ms.window_removed w).2.map (fun _ => (ms.window_removed w).1)
  | .moveWindowToMonitor d w =>
    if d ≤ 255 then
      (ms.move_window_to_monitor d w).2.map (fun _ => (ms.move_window_to_monitor d w).1)
    else none
  | .focusWindowChanged w =>
    (ms.focus_window_changed w).2.map (fun _ => (ms.focus_window_changed w).1)
  | .moveWindow t w =>
    if t ≤ 255 then (ms.move_window t w).2.map (fun _ => (ms.move_window t w).1)
    else none
  | .setVisibleTags m =>
    if m < 2 ^ 32 then (ms.set_visible_tags m).2.map (fun _ => (ms.set_visible_tags m).1)
    else none
  | .toggleTag t =>
    if 1 ≤ t ∧ t ≤ 32 then (ms.toggle_tag t).2.map (fun _ => (ms.toggle_tag t).1)
    else none
  | .restorePrevTags => (ms.restore_prev_tags).2.map (fun _ => (ms.restore_prev_tags).1)
  | .monitorRemoved name =>
    (ms.monitor_removed name).2.map (fun _ => (ms.monitor_removed name).1)
  | .monitorAdded id name =>
    if id ≤ 255 then
      (ms.monitor_added_obj id name).2.map (fun _ => (ms.monitor_added_obj id name).1)
    else none

/-- Reachability of a MonitorSet by successful operations from a freshly
constructed topology. -/
inductive ReachM : MonitorsState → Prop where
  | init (infos : List MonitorInfo) : ReachM (MonitorsState.fromInfos infos)
  | step {ms ms' : MonitorsState} (op : MOp) : ReachM ms →
      execMOp ms op = some ms' → ReachM ms'

/-! ### Window multiplicities

The single-ownership invariant is proved through exact multiplicity
bookkeeping: `tlCount` counts the occurrences of an address across the tags
of one TagState, `monCount` across a whole monitor list. -/

def tlCount (tl : List Tag) (a : String) : Nat :=
  (tl.map (fun t => t.window_addrs.count a)).sum

def monCount (l : List Monitor) (a : String) : Nat :=
  (l.map (fun m => tlCount m.state.tags a)).sum

/-- Replacing one element of a list changes a mapped sum by exactly the
difference of the images (stated additively to stay in `Nat`). -/
theorem sum_map_set {α : Type} (g : α → Nat) :
    ∀ (l : List α) (i : Nat) (x t : α), l.get? i = some t →
      ((l.set i x).map g).sum + g t = (l.map g).sum + g x := by
  intro l
  induction l with
  | nil => intro i x t h; cases h
  | cons y ys ih =>
    intro i x t h
    cases i with
    | zero =>
      rw [List.get?_cons_zero] at h
      injection h with h
      subst h
      simp only [List.set, List.map, List.sum_cons]
      omega
    | succ n =>
      rw [List.get?_cons_succ] at h
      simp only [List.set, List.map, List.sum_cons]
      have := ih n x t h
      omega

theorem tlCount_cons (t : Tag) (ts : List Tag) (a : String) :
    tlCount (t :: ts) a = t.window_addrs.count a + tlCount ts a := by
  simp [tlCount]

theorem monCount_cons (m : Monitor) (l : List Monitor) (a : String) :
    monCount (m :: l) a = tlCount m.state.tags a + monCount l a := by
  simp [monCount]

theorem monCount_set (l : List Monitor) (i : Nat) (m m' : Monitor) (a : String)
    (h : l.get? i = some m) :
    monCount (l.set i m') a + tlCount m.state.tags a
      = monCount l a + tlCount m'.state.tags a := by
  unfold monCount
  exact sum_map_set (fun mo : Monitor => tlCount mo.state.tags a) l i m' m h

theorem monCount_append (l l' : List Monitor) (a : String) :
    monCount (l ++ l') a = monCount l a + monCount l' a := by
  simp [monCount]

theorem monCount_eraseIdx_le (a : String) :
    ∀ (l : List Monitor) (i : Nat), monCount (l.eraseIdx i) a ≤ monCount l a := by
  intro l
  induction l with
  | nil => intro i; simp [List.eraseIdx]
  | cons m rest ih =>
    intro i
    cases i with
    | zero =>
      rw [List.eraseIdx, monCount_cons]
      omega
    | succ n =>
      rw [List.eraseIdx, monCount_cons, monCount_cons]
      have := ih n
      omega

theorem tlCount_eq_zero_iff (tl : List Tag) (a : String) :
    tlCount tl a = 0 ↔ ∀ t ∈ tl, a ∉ t.window_addrs := by
  unfold tlCount
  rw [List.sum_eq_zero_iff]
  constructor
  · intro h t ht
    have := h (t.window_addrs.count a) (List.mem_map_of_mem _ ht)
    rw [← List.count_eq_zero]
    exact this
  · intro h x hx
    obtain ⟨t, ht, rfl⟩ := List.mem_map.mp hx
    rw [List.count_eq_zero]
    exact h t ht

theorem one_le_tlCount (tl : List Tag) (a : String)
    (h : ∃ t ∈ tl, a ∈ t.window_addrs) : 1 ≤ tlCount tl a := by
  by_contra hc
  obtain ⟨t, ht, hmem⟩ := h
  have h0 : tlCount tl a = 0 := by omega
  exact (tlCount_eq_zero_iff tl a).mp h0 t ht hmem

theorem tlCount_init (a : String) : tlCount State.init.tags a = 0 := by
  rw [tlCount_eq_zero_iff]
  intro t ht
  simp only [State.init, List.mem_map, List.mem_range] at ht
  obtain ⟨n, -, rfl⟩ := ht
  simp

/-- Appending one element changes `List.count` by its match indicator. -/
theorem count_push (l : List String) (w a : String) :
    (l ++ [w]).count a = l.count a + (if w = a then 1 else 0) := by
  by_cases h : w = a
  · subst h
    simp [List.count_append]
  · simp [List.count_append, List.count_cons, h]

/-- Removing the element at a valid position lowers `List.count` by its match
indicator. -/
theorem count_eraseIdx (a : String) :
    ∀ (l : List String) (wi : Nat), wi < l.length →
      (l.eraseIdx wi).count a + (if l.getD wi "" = a then 1 else 0) = l.count a := by
  intro l
  induction l with
  | nil => intro wi h; simp at h
  | cons x xs ih =>
    intro wi h
    cases wi with
    | zero =>
      rw [List.eraseIdx, List.getD_cons_zero]
      by_cases hx : x = a
      · subst hx
        simp [List.count_cons]
      · simp [List.count_cons, hx]
    | succ n =>
      rw [List.eraseIdx, List.getD_cons_succ]
      have hn : n < xs.length := by simpa using h
      have hih := ih n hn
      by_cases hx : x = a
      · subst hx
        simp only [List.count_cons, beq_self_eq_true, if_true]
        omega
      · have hbe : (x == a) = false := by simpa using hx
        simp only [List.count_cons, hbe, Bool.false_eq_true, if_false]
        omega

/-- `modifyTag` at a valid index changes `tlCount` by the difference of the
modified tag's counts. -/
theorem tlCount_modify (tl : List Tag) (i : Nat) (f : Tag → Tag) (a : String)
    (hi : i < tl.length) :
    tlCount (modifyTag tl i f) a + (tl.getD i dTag).window_addrs.count a
      = tlCount tl a + (f (tl.getD i dTag)).window_addrs.count a := by
  unfold modifyTag
  rcases hg : tl.get? i with _ | t
  · rw [List.get?_eq_getElem?, List.getElem?_eq_none_iff] at hg
    omega
  · have hgd : tl.getD i dTag = t := by
      rw [List.getD_eq_getElem?_getD, ← List.get?_eq_getElem?, hg]
      rfl
    rw [hgd]
    exact sum_map_set (fun t => t.window_addrs.count a) tl i (f t) t hg

/-! ### Multiplicity effect of each TagState operation -/

/-- Pushing `w` onto the tag at `i` (in range or not) raises no count by more
than one and leaves counts of other addresses unchanged. -/
theorem tlCount_push_modify (tl : List Tag) (i : Nat) (w : String) :
    (∀ a, a ≠ w →
      tlCount (modifyTag tl i (fun t => { t with window_addrs := t.window_addrs ++ [w] })) a
        = tlCount tl a) ∧
    tlCount (modifyTag tl i (fun t => { t with window_addrs := t.window_addrs ++ [w] })) w
      ≤ tlCount tl w + 1 := by
  by_cases hi : i < tl.length
  · constructor
    · intro a ha
      have h := tlCount_modify tl i
        (fun t => { t with window_addrs := t.window_addrs ++ [w] }) a hi
      rw [count_push, if_neg (fun hc => ha hc.symm)] at h
      omega
    · have h := tlCount_modify tl i
        (fun t => { t with window_addrs := t.window_addrs ++ [w] }) w hi
      rw [count_push, if_pos rfl] at h
      omega
  · rw [modifyTag_oob tl i _ (by omega)]
    exact ⟨fun a _ => rfl, by omega⟩

/-- A successful `new_window_added` leaves every other address's count
unchanged and was applied to a state not tracking `w` at all. -/
theorem tlCount_nwa (s : State) (w : String) (s' : State) (u : Unit)
    (h : s.new_window_added w = (s', some u)) :
    (∀ a, a ≠ w → tlCount s'.tags a = tlCount s.tags a) ∧
      tlCount s'.tags w ≤ tlCount s.tags w + 1 ∧
      tlCount s.tags w = 0 := by
  rcases nwa_cases s w with ⟨i, -, heq⟩ | ⟨hfind, heq⟩
  · rw [heq] at h
    injection h with h1 h2
    cases h2
  · rw [heq] at h
    injection h with h1 h2
    have htags : s'.tags = modifyTag s.tags s.active_tag_index
        (fun t => { t with window_addrs := t.window_addrs ++ [w] }) := by
      rw [← h1]
    obtain ⟨hne, hw⟩ := tlCount_push_modify s.tags s.active_tag_index w
    refine ⟨fun a ha => by rw [htags]; exact hne a ha, by rw [htags]; exact hw, ?_⟩
    rw [tlCount_eq_zero_iff]
    exact (find_window_tag_index_eq_none_iff w s.tags).mp hfind

/-- A successful `window_removed` lowers the count of `w` by exactly one and
leaves every other address's count unchanged. -/
theorem tlCount_wr (s : State) (w : String) (s' : State) (u : Unit)
    (h : s.window_removed w = (s', some u)) :
    (∀ a, a ≠ w → tlCount s'.tags a = tlCount s.tags a) ∧
      tlCount s'.tags w + 1 = tlCount s.tags w := by
  rcases wr_cases s w with ⟨-, heq⟩ | ⟨ti, wi, hfind, heq⟩
  · rw [heq] at h
    injection h with h1 h2
    cases h2
  · rw [heq] at h
    injection h with h1 h2
    obtain ⟨hti, hwi, hget⟩ := find_window_indexes_eq_some w s.tags ti wi hfind
    have htags : s'.tags = modifyTag s.tags ti
        (fun t => { t with window_addrs := t.window_addrs.eraseIdx wi }) := by
      rw [← h1]
    constructor
    · intro a ha
      have hm := tlCount_modify s.tags ti
        (fun t => { t with window_addrs := t.window_addrs.eraseIdx wi }) a hti
      simp only [] at hm
      have hc := count_eraseIdx a (s.tags.getD ti dTag).window_addrs wi hwi
      rw [hget, if_neg (fun hc => ha hc.symm)] at hc
      rw [htags]
      omega
    · have hm := tlCount_modify s.tags ti
        (fun t => { t with window_addrs := t.window_addrs.eraseIdx wi }) w hti
      simp only [] at hm
      have hc := count_eraseIdx w (s.tags.getD ti dTag).window_addrs wi hwi
      rw [hget, if_pos rfl] at hc
      rw [htags]
      omega

/-- A successful `move_window` leaves every address's count unchanged. -/
theorem tlCount_move (s : State) (d : Nat) (wo : Option String) (s' : State) (c : Changes)
    (h : s.move_window d wo = (s', some c)) (a : String) :
    tlCount s'.tags a = tlCount s.tags a := by
  obtain ⟨w, ti, wi, -, hfind, hne, hd, htags, -⟩ := move_full_shape s d wo s' c h
  obtain ⟨hti, hwi, hget⟩ := find_window_indexes_eq_some w s.tags ti wi hfind
  have h1 := tlCount_modify s.tags ((d + 255) % 256)
    (fun t => { t with window_addrs := t.window_addrs ++ [w] }) a hd
  rw [count_push] at h1
  have hlen : ti < (modifyTag s.tags ((d + 255) % 256)
      (fun t => { t with window_addrs := t.window_addrs ++ [w] })).length := by
    rw [modifyTag_length]
    exact hti
  have hgd : (modifyTag s.tags ((d + 255) % 256)
      (fun t => { t with window_addrs := t.window_addrs ++ [w] })).getD ti dTag
      = s.tags.getD ti dTag :=
    modifyTag_getD_ne s.tags _ ti _ (fun hc => hne hc.symm)
  have h2 := tlCount_modify (modifyTag s.tags ((d + 255) % 256)
      (fun t => { t with window_addrs := t.window_addrs ++ [w] })) ti
    (fun t => { t with window_addrs := t.window_addrs.eraseIdx wi }) a hlen
  rw [hgd] at h2
  simp only [] at h1 h2
  have hc := count_eraseIdx a (s.tags.getD ti dTag).window_addrs wi hwi
  rw [hget] at hc
  rw [htags]
  by_cases hw : w = a
  · rw [if_pos hw] at h1
    rw [if_pos hw] at hc
    omega
  · rw [if_neg hw] at h1
    rw [if_neg hw] at hc
    omega

/-- `set_visible_tags` never changes the tag vector (success or failure). -/
theorem svt_fst_tags (s : State) (m : Nat) : (s.set_visible_tags m).1.tags = s.tags := by
  by_cases hm : m = 0
  · subst hm
    rw [svt_zero]
  · obtain ⟨s', c, heq, htags, -⟩ := svt_success s m hm
    rw [heq]
    exact htags

theorem toggle_fst_tags (s : State) (t : Nat) : (s.toggle_tag t).1.tags = s.tags := by
  simp only [State.toggle_tag]
  exact svt_fst_tags s _

theorem restore_fst_tags (s : State) : (s.restore_prev_tags).1.tags = s.tags := by
  simp only [State.restore_prev_tags]
  exact svt_fst_tags s _

/-! ### Shape of the MonitorSet operations -/

theorem delegate_success {α : Type} (ms : MonitorsState) (f : State → State × Option α)
    (ms' : MonitorsState) (u : α) (h : ms.delegate f = (ms', some u)) :
    ∃ m s', ms.monitors.get? ms.active_monitor_index = some m ∧ f m.state = (s', some u) ∧
      ms'.monitors = ms.monitors.set ms.active_monitor_index { m with state := s' } := by
  unfold MonitorsState.delegate at h
  rcases hg : ms.monitors.get? ms.active_monitor_index with _ | m
  · rw [hg] at h
    simp only [] at h
    injection h with h1 h2
    cases h2
  · rw [hg] at h
    simp only [] at h
    rcases hf : f m.state with ⟨s', r⟩
    rw [hf] at h
    simp only [] at h
    injection h with h1 h2
    subst h2
    exact ⟨m, s', rfl, hf, by rw [← h1]⟩

theorem otherHasWindow_eq_false_iff (ms : MonitorsState) (w : String) :
    ms.otherHasWindow w = false ↔
      ∀ i, i < ms.monitors.length → i ≠ ms.active_monitor_index →
        find_window_tag_index (ms.monitors.getD i dMon).state.tags w = none := by
  unfold MonitorsState.otherHasWindow
  rw [← Bool.not_eq_true, List.any_eq_true]
  constructor
  · intro h i hi hne
    rcases hfind : find_window_tag_index (ms.monitors.getD i dMon).state.tags w with _ | j
    · rfl
    · have hpred : (decide (i ≠ ms.active_monitor_index) &&
          (find_window_tag_index (ms.monitors.getD i dMon).state.tags w).isSome) = true := by
        rw [hfind]
        simp [hne]
      exact absurd ⟨i, List.mem_range.mpr hi, hpred⟩ h
  · intro h hc
    obtain ⟨i, hmem, hp⟩ := hc
    rw [Bool.and_eq_true, decide_eq_true_eq] at hp
    obtain ⟨hne, hsome⟩ := hp
    rw [h i (List.mem_range.mp hmem) hne] at hsome
    simp at hsome

theorem monCount_eq_zero (l : List Monitor) (a : String)
    (h : ∀ m ∈ l, tlCount m.state.tags a = 0) : monCount l a = 0 := by
  unfold monCount
  rw [List.sum_eq_zero_iff]
  intro x hx
  obtain ⟨m, hm, rfl⟩ := List.mem_map.mp hx
  exact h m hm

/-- `removeFromFirst` lowers the total count of the removed address by
exactly one and leaves every other address's total unchanged. -/
theorem removeFromFirst_counts (w : String) :
    ∀ (l ml : List Monitor), removeFromFirst w l = some ml →
      (∀ a, a ≠ w → monCount ml a = monCount l a) ∧
        monCount ml w + 1 = monCount l w := by
  intro l
  induction l with
  | nil => intro ml h; cases h
  | cons m rest ih =>
    intro ml h
    unfold removeFromFirst at h
    rcases hwr : m.state.window_removed w with ⟨s', r⟩
    rw [hwr] at h
    cases r with
    | some u =>
      simp only [] at h
      injection h with h
      subst h
      obtain ⟨hne, hw⟩ := tlCount_wr m.state w s' u hwr
      constructor
      · intro a ha
        have e1 : monCount ({ m with state := s' } :: rest) a
            = tlCount s'.tags a + monCount rest a := monCount_cons _ _ _
        rw [e1, monCount_cons, hne a ha]
      · have e1 : monCount ({ m with state := s' } :: rest) w
            = tlCount s'.tags w + monCount rest w := monCount_cons _ _ _
        rw [e1, monCount_cons]
        omega
    | none =>
      simp only [] at h
      rcases hrec : removeFromFirst w rest with _ | r
      · rw [hrec] at h
        cases h
      · rw [hrec] at h
        simp only [Option.map] at h
        injection h with h
        subst h
        obtain ⟨hne, hw⟩ := ih r hrec
        constructor
        · intro a ha
          rw [monCount_cons, monCount_cons, hne a ha]
        · rw [monCount_cons, monCount_cons]
          omega

theorem mwtm_success (ms : MonitorsState) (d : Nat) (wo : Option String)
    (ms' : MonitorsState) (u : Unit)
    (h : ms.move_window_to_monitor d wo = (ms', some u)) :
    ∃ w ml dm s', removeFromFirst w ms.monitors = some ml ∧
      ml.get? d = some dm ∧
      dm.state.new_window_added w = (s', some u) ∧
      ms'.monitors = ml.set d { dm with state := s' } := by
  unfold MonitorsState.move_window_to_monitor at h
  simp only [] at h
  split at h
  · injection h with h1 h2
    cases h2
  · rename_i w hw
    split at h
    · injection h with h1 h2
      cases h2
    · rename_i ml hml
      try simp only [] at h
      split at h
      · injection h with h1 h2
        cases h2
      · rename_i dm hdm
        rcases hna : dm.state.new_window_added w with ⟨s', r⟩
        rw [hna] at h
        simp only [] at h
        injection h with h1 h2
        subst h2
        exact ⟨w, ml, dm, s', hml, hdm, hna, by rw [← h1]⟩

/-! ### Preservation of the single-ownership bound -/

theorem invM_delegate_le {α : Type} (ms ms' : MonitorsState) (f : State → State × Option α)
    (u : α) (h : ms.delegate f = (ms', some u))
    (hf : ∀ s s2 u2, f s = (s2, some u2) → ∀ a, tlCount s2.tags a ≤ tlCount s.tags a)
    (hinv : ∀ a, monCount ms.monitors a ≤ 1) : ∀ a, monCount ms'.monitors a ≤ 1 := by
  obtain ⟨m, s', hg, hfm, hmons⟩ := delegate_success ms f ms' u h
  intro a
  have hset := monCount_set ms.monitors ms.active_monitor_index m { m with state := s' } a hg
  have e1 : tlCount ({ m with state := s' } : Monitor).state.tags a = tlCount s'.tags a := rfl
  have hle := hf m.state s' u hfm a
  have hia := hinv a
  rw [hmons]
  omega

theorem invM_nwa (ms ms' : MonitorsState) (w : String) (u : Unit)
    (h : ms.new_window_added w = (ms', some u))
    (hinv : ∀ a, monCount ms.monitors a ≤ 1) : ∀ a, monCount ms'.monitors a ≤ 1 := by
  unfold MonitorsState.new_window_added at h
  by_cases hb : ms.otherHasWindow w = true
  · rw [if_pos hb] at h
    injection h with h1 h2
    cases h2
  · have ho : ms.otherHasWindow w = false := Bool.eq_false_iff.mpr hb
    rw [if_neg hb] at h
    obtain ⟨m, s', hg, hfm, hmons⟩ := delegate_success ms _ ms' u h
    try simp only [] at hfm
    obtain ⟨hne, hle, hzero⟩ := tlCount_nwa m.state w s' u hfm
    intro a
    have hset := monCount_set ms.monitors ms.active_monitor_index m { m with state := s' } a hg
    have e1 : tlCount ({ m with state := s' } : Monitor).state.tags a = tlCount s'.tags a := rfl
    have hia := hinv a
    by_cases ha : a = w
    · subst ha
      have hms0 : monCount ms.monitors a = 0 := by
        apply monCount_eq_zero
        intro mon hmon
        obtain ⟨i, hi, hget⟩ := List.mem_iff_getElem.mp hmon
        by_cases hia2 : i = ms.active_monitor_index
        · subst hia2
          have hg2 := hg
          rw [List.get?_eq_getElem?, List.getElem?_eq_getElem hi] at hg2
          injection hg2 with hg2
          rw [← hget, hg2]
          exact hzero
        · have hfind := (otherHasWindow_eq_false_iff ms a).mp ho i hi hia2
          have hgd : ms.monitors.getD i dMon = mon := by
            rw [List.getD_eq_getElem?_getD, List.getElem?_eq_getElem hi, hget]
            rfl
          rw [← hgd, tlCount_eq_zero_iff]
          exact (find_window_tag_index_eq_none_iff a _).mp hfind
      rw [hmons]
      omega
    · have heq := hne a ha
      rw [hmons]
      omega

theorem invM_mwtm (ms : MonitorsState) (d : Nat) (wo : Option String) (ms' : MonitorsState)
    (u : Unit) (h : ms.move_window_to_monitor d wo = (ms', some u))
    (hinv : ∀ a, monCount ms.monitors a ≤ 1) : ∀ a, monCount ms'.monitors a ≤ 1 := by
  obtain ⟨w, ml, dm, s', hml, hdm, hna, hmons⟩ := mwtm_success ms d wo ms' u h
  obtain ⟨hrne, hrw⟩ := removeFromFirst_counts w ms.monitors ml hml
  obtain ⟨hne, hle, hzero⟩ := tlCount_nwa dm.state w s' u hna
  intro a
  have hset := monCount_set ml d dm { dm with state := s' } a hdm
  have e1 : tlCount ({ dm with state := s' } : Monitor).state.tags a = tlCount s'.tags a := rfl
  have hia := hinv a
  rw [hmons]
  by_cases ha : a = w
  · subst ha
    have h1 := hrw
    omega
  · have h2 := hne a ha
    have h3 := hrne a ha
    omega

theorem invM_migrate (d : Nat) :
    ∀ (ws : List String) (ms ms' : MonitorsState) (u : Unit),
      migrateAll d ms ws = (ms', some u) →
      (∀ a, monCount ms.monitors a ≤ 1) → ∀ a, monCount ms'.monitors a ≤ 1 := by
  intro ws
  induction ws with
  | nil =>
    intro ms ms' u h hinv
    unfold migrateAll at h
    injection h with h1 h2
    rw [← h1]
    exact hinv
  | cons w rest ih =>
    intro ms ms' u h hinv
    unfold migrateAll at h
    rcases hstep : ms.move_window_to_monitor d (some w) with ⟨ms1, r⟩
    rw [hstep] at h
    cases r with
    | none =>
      simp only [] at h
      injection h with h1 h2
      cases h2
    | some u1 =>
      simp only [] at h
      exact ih ms1 ms' u h (invM_mwtm ms d (some w) ms1 u1 hstep hinv)

theorem mrm_success (ms : MonitorsState) (name : String) (ms' : MonitorsState) (u : Unit)
    (h : ms.monitor_removed name = (ms', some u)) :
    ∃ ri d ms2 u2, migrateAll d ms ((ms.monitors.getD ri dMon).state.all_window_addrs)
        = (ms2, some u2) ∧
      ms'.monitors = ms2.monitors.eraseIdx ri := by
  unfold MonitorsState.monitor_removed at h
  split at h
  · injection h with h1 h2
    cases h2
  · rename_i ri hri
    split at h
    · injection h with h1 h2
      cases h2
    · rename_i fm hfm
      simp only [] at h
      rcases hmig : migrateAll fm.id ms ((ms.monitors.getD ri dMon).state.all_window_addrs)
        with ⟨ms2, r2⟩
      rw [hmig] at h
      cases r2 with
      | none =>
        simp only [] at h
        injection h with h1 h2
        cases h2
      | some u2 =>
        simp only [] at h
        injection h with h1 h2
        exact ⟨ri, fm.id, ms2, u2, hmig, by rw [← h1]⟩

theorem invM_mrm (ms : MonitorsState) (name : String) (ms' : MonitorsState) (u : Unit)
    (h : ms.monitor_removed name = (ms', some u))
    (hinv : ∀ a, monCount ms.monitors a ≤ 1) : ∀ a, monCount ms'.monitors a ≤ 1 := by
  obtain ⟨ri, d, ms2, u2, hmig, hmons⟩ := mrm_success ms name ms' u h
  intro a
  rw [hmons]
  exact le_trans (monCount_eraseIdx_le a ms2.monitors ri)
    (invM_migrate d _ ms ms2 u2 hmig hinv a)

theorem invM_madd (ms : MonitorsState) (id : Nat) (name : String) (ms' : MonitorsState)
    (u : Unit) (h : ms.monitor_added_obj id name = (ms', some u))
    (hinv : ∀ a, monCount ms.monitors a ≤ 1) : ∀ a, monCount ms'.monitors a ≤ 1 := by
  unfold MonitorsState.monitor_added_obj at h
  split at h
  · injection h with h1 h2
    cases h2
  · injection h with h1 h2
    intro a
    have hm : ms'.monitors = ms.monitors ++ [{ id := id, name := name, state := State.init }] := by
      rw [← h1]
    rw [hm, monCount_append, monCount_cons]
    have hz : tlCount ({ id := id, name := name, state := State.init } : Monitor).state.tags a
        = 0 := tlCount_init a
    have hnil : monCount ([] : List Monitor) a = 0 := by simp [monCount]
    have hia := hinv a
    omega

theorem invM_fmc (ms : MonitorsState) (name : String) (ms' : MonitorsState) (u : Unit)
    (h : ms.focused_monitor_changed name = (ms', some u))
    (hinv : ∀ a, monCount ms.monitors a ≤ 1) : ∀ a, monCount ms'.monitors a ≤ 1 := by
  unfold MonitorsState.focused_monitor_changed at h
  split at h
  · injection h with h1 h2
    intro a
    have hm : ms'.monitors = ms.monitors := by rw [← h1]
    rw [hm]
    exact hinv a
  · injection h with h1 h2
    cases h2

/-- Multiplicity effect of a successful two-argument `focus_window_changed`. -/
theorem tlCount_fwc2 (s : State) (w : String) (nw : Bool) (s' : State) (u : Unit)
    (h : s.focus_window_changed2 w nw = (s', some u)) :
    (∀ a, a ≠ w → tlCount s'.tags a = tlCount s.tags a) ∧
      tlCount s'.tags w ≤ tlCount s.tags w + 1 := by
  unfold State.focus_window_changed2 at h
  cases nw with
  | false =>
    rw [if_neg (by simp)] at h
    injection h with h1 h2
    have htags : s'.tags = s.tags := by rw [← h1]
    rw [htags]
    exact ⟨fun a _ => rfl, by omega⟩
  | true =>
    rw [if_pos rfl] at h
    rcases hna : s.new_window_added w with ⟨s1, r⟩
    rw [hna] at h
    cases r with
    | none =>
      simp only [] at h
      injection h with h1 h2
      cases h2
    | some u2 =>
      simp only [] at h
      injection h with h1 h2
      obtain ⟨hne, hle, -⟩ := tlCount_nwa s w s1 u2 hna
      have htags : s'.tags = s1.tags := by rw [← h1]
      rw [htags]
      exact ⟨hne, hle⟩

theorem invM_fwc (ms : MonitorsState) (w : String) (ms' : MonitorsState) (u : Unit)
    (h : ms.focus_window_changed w = (ms', some u))
    (hinv : ∀ a, monCount ms.monitors a ≤ 1) : ∀ a, monCount ms'.monitors a ≤ 1 := by
  unfold MonitorsState.focus_window_changed at h
  try simp only [] at h
  obtain ⟨m, s', hg, hfm, hmons⟩ := delegate_success ms _ ms' u h
  try simp only [] at hfm
  by_cases hfind :
      ms.monitors.find? (fun mo => (find_window_tag_index mo.state.tags w).isSome) = none
  · have hb : (ms.monitors.find?
        (fun mo => (find_window_tag_index mo.state.tags w).isSome)).isNone = true := by
      rw [hfind]
      rfl
    rw [hb] at hfm
    obtain ⟨hne, hle⟩ := tlCount_fwc2 m.state w true s' u hfm
    intro a
    have hset := monCount_set ms.monitors ms.active_monitor_index m { m with state := s' } a hg
    have e1 : tlCount ({ m with state := s' } : Monitor).state.tags a = tlCount s'.tags a := rfl
    have hia := hinv a
    by_cases ha : a = w
    · subst ha
      have hms0 : monCount ms.monitors a = 0 := by
        apply monCount_eq_zero
        intro mon hmon
        have hnp := List.find?_eq_none.mp hfind mon hmon
        rw [tlCount_eq_zero_iff]
        intro t ht hmem
        exact hnp (by rw [find_window_tag_index_isSome_iff]; exact ⟨t, ht, hmem⟩)
      rw [hmons]
      omega
    · have heq := hne a ha
      rw [hmons]
      omega
  · rcases hmf : ms.monitors.find? (fun mo => (find_window_tag_index mo.state.tags w).isSome)
      with _ | mf
    · exact absurd hmf hfind
    · have hb : (ms.monitors.find?
          (fun mo => (find_window_tag_index mo.state.tags w).isSome)).isNone = false := by
        rw [hmf]
        rfl
      rw [hb] at hfm
      unfold State.focus_window_changed2 at hfm
      rw [if_neg (by simp)] at hfm
      injection hfm with h1 h2
      have htags : s'.tags = m.state.tags := by rw [← h1]
      intro a
      have hset := monCount_set ms.monitors ms.active_monitor_index m { m with state := s' } a hg
      have e1 : tlCount ({ m with state := s' } : Monitor).state.tags a = tlCount s'.tags a := rfl
      have e2 : tlCount s'.tags a = tlCount m.state.tags a := by rw [htags]
      have hia := hinv a
      rw [hmons]
      omega

theorem exec_shape {γ : Type} (p : MonitorsState × Option γ) (ms' : MonitorsState)
    (h : p.2.map (fun _ => p.1) = some ms') : ∃ u, p = (ms', some u) := by
  rcases p with ⟨m1, r⟩
  cases r with
  | none =>
    simp only [Option.map] at h
    cases h
  | some u =>
    simp only [Option.map] at h
    injection h with h
    have hm : m1 = ms' := h
    exact ⟨u, by rw [hm]⟩

/-- Every successful MonitorSet operation preserves the bound
`monCount · ≤ 1` on every address. -/
theorem invM_step (ms ms' : MonitorsState) (op : MOp)
    (hinv : ∀ a, monCount ms.monitors a ≤ 1)
    (he : execMOp ms op = some ms') : ∀ a, monCount ms'.monitors a ≤ 1 := by
  cases op with
  | focusedMonitorChanged name =>
    simp only [execMOp] at he
    obtain ⟨u, hu⟩ := exec_shape _ ms' he
    exact invM_fmc ms name ms' u hu hinv
  | newWindowAdded w =>
    simp only [execMOp] at he
    obtain ⟨u, hu⟩ := exec_shape _ ms' he
    exact invM_nwa ms ms' w u hu hinv
  | windowRemoved w =>
    simp only [execMOp] at he
    obtain ⟨u, hu⟩ := exec_shape _ ms' he
    apply invM_delegate_le ms ms' _ u hu ?_ hinv
    intro s s2 u2 hwr a
    obtain ⟨hne, hw⟩ := tlCount_wr s w s2 u2 hwr
    by_cases ha : a = w
    · subst ha
      omega
    · rw [hne a ha]
  | moveWindowToMonitor d wo =>
    simp only [execMOp] at he
    split at he
    · obtain ⟨u, hu⟩ := exec_shape _ ms' he
      exact invM_mwtm ms d wo ms' u hu hinv
    · cases he
  | focusWindowChanged w =>
    simp only [execMOp] at he
    obtain ⟨u, hu⟩ := exec_shape _ ms' he
    exact invM_fwc ms w ms' u hu hinv
  | moveWindow t wo =>
    simp only [execMOp] at he
    split at he
    · obtain ⟨u, hu⟩ := exec_shape _ ms' he
      unfold MonitorsState.move_window at hu
      rcases hd : ms.delegate (fun s => s.move_window t wo) with ⟨m1, r⟩
      rw [hd] at hu
      simp only [] at hu
      injection hu with h1 h2
      cases r with
      | none =>
        simp only [Option.map] at h2
        cases h2
      | some c =>
        apply invM_delegate_le ms ms' _ c (by rw [hd, h1]) ?_ hinv
        intro s s2 c2 hmv a
        exact le_of_eq (tlCount_move s t wo s2 c2 hmv a)
    · cases he
  | setVisibleTags mv =>
    simp only [execMOp] at he
    split at he
    · obtain ⟨u, hu⟩ := exec_shape _ ms' he
      unfold MonitorsState.set_visible_tags at hu
      rcases hd : ms.delegate (fun s => s.set_visible_tags mv) with ⟨m1, r⟩
      rw [hd] at hu
      simp only [] at hu
      injection hu with h1 h2
      cases r with
      | none =>
        simp only [Option.map] at h2
        cases h2
      | some c =>
        apply invM_delegate_le ms ms' _ c (by rw [hd, h1]) ?_ hinv
        intro s s2 c2 hs a
        have h3 : (s.set_visible_tags mv).1.tags = s2.tags := by rw [hs]
        rw [← h3, svt_fst_tags]
    · cases he
  | toggleTag t =>
    simp only [execMOp] at he
    split at he
    · obtain ⟨u, hu⟩ := exec_shape _ ms' he
      unfold MonitorsState.toggle_tag at hu
      rcases hd : ms.delegate (fun s => s.toggle_tag t) with ⟨m1, r⟩
      rw [hd] at hu
      simp only [] at hu
      injection hu with h1 h2
      cases r with
      | none =>
        simp only [Option.map] at h2
        cases h2
      | some c =>
        apply invM_delegate_le ms ms' _ c (by rw [hd, h1]) ?_ hinv
        intro s s2 c2 hs a
        have h3 : (s.toggle_tag t).1.tags = s2.tags := by rw [hs]
        rw [← h3, toggle_fst_tags]
    · cases he
  | restorePrevTags =>
    simp only [execMOp] at he
    obtain ⟨u, hu⟩ := exec_shape _ ms' he
    unfold MonitorsState.restore_prev_tags at hu
    rcases hd : ms.delegate (fun s => s.restore_prev_tags) with ⟨m1, r⟩
    rw [hd] at hu
    simp only [] at hu
    injection hu with h1 h2
    cases r with
    | none =>
      simp only [Option.map] at h2
      cases h2
    | some c =>
      apply invM_delegate_le ms ms' _ c (by rw [hd, h1]) ?_ hinv
      intro s s2 c2 hs a
      have h3 : (s.restore_prev_tags).1.tags = s2.tags := by rw [hs]
      rw [← h3, restore_fst_tags]
  | monitorRemoved name =>
    simp only [execMOp] at he
    obtain ⟨u, hu⟩ := exec_shape _ ms' he
    exact invM_mrm ms name ms' u hu hinv
  | monitorAdded id name =>
    simp only [execMOp] at he
    split at he
    · obtain ⟨u, hu⟩ := exec_shape _ ms' he
      exact invM_madd ms id name ms' u hu hinv
    · cases he

theorem monCount_fromInfos (infos : List MonitorInfo) (a : String) :
    monCount (MonitorsState.fromInfos infos).monitors a = 0 := by
  apply monCount_eq_zero
  intro mon hmon
  simp only [MonitorsState.fromInfos, List.mem_map] at hmon
  obtain ⟨info, -, rfl⟩ := hmon
  exact tlCount_init a

/-- The total-multiplicity bound holds in every reachable MonitorSet. -/
theorem reachM_le_one (ms : MonitorsState) (h : ReachM ms) :
    ∀ a, monCount ms.monitors a ≤ 1 := by
  induction h with
  | init infos =>
    intro a
    rw [monCount_fromInfos]
    omega
  | step op hr he ih => exact invM_step _ _ op ih he

theorem countP_le_monCount (a : String) :
    ∀ l : List Monitor,
      l.countP (fun m => (find_window_tag_index m.state.tags a).isSome) ≤ monCount l a := by
  intro l
  induction l with
  | nil => simp [monCount]
  | cons m rest ih =>
    rw [List.countP_cons, monCount_cons]
    by_cases hp : (find_window_tag_index m.state.tags a).isSome = true
    · rw [if_pos hp]
      have h1 : 1 ≤ tlCount m.state.tags a := by
        apply one_le_tlCount
        rw [← find_window_tag_index_isSome_iff]
        exact hp
      omega
    · rw [if_neg hp]
      omega

def msW : MonitorsState :=
  { monitors := [{ id := 0, name := "DP-1", state := State.init },
                 { id := 1, name := "HDMI-1", state := (State.init.new_window_added "a").1 }]
    active_monitor_index := 0 }

def msW2 : MonitorsState :=
  { monitors := msW.monitors
    active_monitor_index := 1 }

/-- C7: `MonitorsState::new_window_added(addr)` fails whenever `addr` is
already tracked on a monitor other than the active one, and — through the
active monitor's own `State::new_window_added` check — also when it is
tracked on the active monitor; consequently, along every sequence of
successful MonitorSet operations from a freshly constructed topology, each
window address is tracked by at most one monitor of the set. -/
theorem C7_single_ownership :
    (∀ (ms : MonitorsState) (w : String) (i : Nat),
        i < ms.monitors.length → i ≠ ms.active_monitor_index →
        (find_window_tag_index (ms.monitors.getD i dMon).state.tags w).isSome = true →
        (ms.new_window_added w).2 = none) ∧
    (∀ (ms : MonitorsState) (w : String),
        ms.active_monitor_index < ms.monitors.length →
        (find_window_tag_index
          (ms.monitors.getD ms.active_monitor_index dMon).state.tags w).isSome = true →
        (ms.new_window_added w).2 = none) ∧
    (∀ ms : MonitorsState, ReachM ms → ∀ a : String,
        ms.monitors.countP (fun m => (find_window_tag_index m.state.tags a).isSome) ≤ 1) := by
  refine ⟨?_, ?_, ?_⟩
  · intro ms w i hi hne hsome
    by_cases hb : ms.otherHasWindow w = true
    · unfold MonitorsState.new_window_added
      rw [if_pos hb]
    · exfalso
      have ho : ms.otherHasWindow w = false := Bool.eq_false_iff.mpr hb
      have hfind := (otherHasWindow_eq_false_iff ms w).mp ho i hi hne
      rw [hfind] at hsome
      simp at hsome
  · intro ms w hlt hsome
    by_cases hb : ms.otherHasWindow w = true
    · unfold MonitorsState.new_window_added
      rw [if_pos hb]
    · unfold MonitorsState.new_window_added
      rw [if_neg hb]
      unfold MonitorsState.delegate
      have hg : ms.monitors.get? ms.active_monitor_index
          = some (ms.monitors.getD ms.active_monitor_index dMon) := by
        rw [List.get?_eq_getElem?, List.getElem?_eq_getElem hlt,
          List.getD_eq_getElem ms.monitors dMon hlt]
      rw [hg]
      simp only []
      obtain ⟨j, hj⟩ := Option.isSome_iff_exists.mp hsome
      have hnwa : (ms.monitors.getD ms.active_monitor_index dMon).state.new_window_added w
          = ((ms.monitors.getD ms.active_monitor_index dMon).state, none) := by
        unfold State.new_window_added
        rw [hj]
      rw [hnwa]
  · intro ms hreach a
    exact le_trans (countP_le_monCount a ms.monitors) (reachM_le_one ms hreach a)

theorem C7_single_ownership_witness :
    ((1 : Nat) < msW.monitors.length ∧ (1 : Nat) ≠ msW.active_monitor_index ∧
      (find_window_tag_index (msW.monitors.getD 1 dMon).state.tags "a").isSome = true ∧
      (msW.new_window_added "a").2 = none) ∧
    (msW2.active_monitor_index < msW2.monitors.length ∧
      (find_window_tag_index
        (msW2.monitors.getD msW2.active_monitor_index dMon).state.tags "a").isSome = true ∧
      (msW2.new_window_added "a").2 = none) ∧
    (MonitorsState.fromInfos [{ id := 0, name := "DP-1", focused := true }]).monitors.countP
      (fun m => (find_window_tag_index m.state.tags "a").isSome) ≤ 1 :=
  ⟨⟨by decide, by decide, by decide,
      C7_single_ownership.1 msW "a" 1 (by decide) (by decide) (by decide)⟩,
   ⟨by decide, by decide,
      C7_single_ownership.2.1 msW2 "a" (by decide) (by decide)⟩,
   C7_single_ownership.2.2 _ (ReachM.init [{ id := 0, name := "DP-1", focused := true }]) "a"⟩

end Hyprtag
